import Mathlib

set_option maxRecDepth 20000

/-!
Verification of the phrase-combination expansion core of
`src/dictionaries/generate/convert_enwiktionary.py`.

Strings are modelled as `List Char` (Python `str` values are sequences of
code points).  Every definition below is a direct translation of the
corresponding Python function; the Python name is kept where Lean allows.
-/

namespace Translator

/-- Python `str.isspace()` / `\s` character class: the exact set of code
points Python treats as whitespace (ASCII whitespace, the information
separators, NEL, NBSP and the Unicode space separators). -/
def pyIsSpace (ch : Char) : Bool :=
  let n := ch.toNat
  (0x9 ≤ n && n ≤ 0xd) || n == 0x20 || (0x1c ≤ n && n ≤ 0x1f) || n == 0x85 ||
    n == 0xa0 || n == 0x1680 || (0x2000 ≤ n && n ≤ 0x200a) || n == 0x2028 ||
    n == 0x2029 || n == 0x202f || n == 0x205f || n == 0x3000

/-- Python `str.strip()`: remove leading and trailing whitespace. -/
def pyStrip (l : List Char) : List Char :=
  ((l.dropWhile pyIsSpace).reverse.dropWhile pyIsSpace).reverse

/-- Python `" ".join(parts)`. -/
def joinSpace (parts : List (List Char)) : List Char :=
  List.intercalate [' '] parts

/-- Helper for `wsSplit`: `cur` holds the current word reversed. -/
def wsSplitAux : List Char → List Char → List (List Char)
  | [], cur => if cur.isEmpty then [] else [cur.reverse]
  | ch :: rest, cur =>
    if pyIsSpace ch then
      (if cur.isEmpty then [] else [cur.reverse]) ++ wsSplitAux rest []
    else wsSplitAux rest (ch :: cur)

/-- Python `str.split()` with no argument (also `re.split(r"\s+", s)` for a
stripped `s`, which is how the source calls it): split on whitespace runs,
dropping empty pieces. -/
def wsSplit (l : List Char) : List (List Char) :=
  wsSplitAux l []

/-- The source's nested `normalize_space`: `" ".join(s.split())`. -/
def normalize_space (l : List Char) : List Char :=
  joinSpace (wsSplit l)

/-- Python `list(dict.fromkeys(results))`: deduplicate keeping the first
occurrence of each element, preserving order. -/
def dedupF : List (List Char) → List (List Char)
  | [] => []
  | x :: xs => x :: (dedupF xs).filter (fun y => y != x)

/-! ### remove_unmatched_brackets -/

/-- Opening bracket characters (the set `opening` in the source). -/
def isOpening (ch : Char) : Bool :=
  ch == '(' || ch == '[' || ch == '\x7b'

/-- Closing bracket characters (the set `closing` in the source). -/
def isClosing (ch : Char) : Bool :=
  ch == ')' || ch == ']' || ch == '\x7d'

/-- The `pairs` dictionary of the source: the matching opener of a closer. -/
def matchingOpen (ch : Char) : Char :=
  if ch == ')' then '(' else if ch == ']' then '[' else '\x7b'

/-- The scan loop of `remove_unmatched_brackets` (lines 66-76): walk the
enumerated characters keeping a stack of `(opener, index)` pairs and the
list of unmatched-closer indices; returns the final stack and that list. -/
def rubScan : List (Nat × Char) → List (Char × Nat) → List Nat →
    List (Char × Nat) × List Nat
  | [], stack, unm => (stack, unm)
  | (i, ch) :: rest, stack, unm =>
    if isOpening ch then rubScan rest ((ch, i) :: stack) unm
    else if isClosing ch then
      match stack with
      | (o, _) :: stack2 =>
        if o == matchingOpen ch then rubScan rest stack2 unm
        else rubScan rest stack (i :: unm)
      | [] => rubScan rest stack (i :: unm)
    else rubScan rest stack unm

/-- `remove_unmatched_brackets` (lines 56-79): delete every bracket
character whose scan position is unmatched (each leftover stack entry and
each unmatched closer), keeping everything else in order. -/
def remove_unmatched_brackets (phrase : List Char) : List Char :=
  let res := rubScan phrase.enum [] []
  let unmatched := res.2 ++ res.1.map Prod.snd
  (phrase.enum.filter (fun e => decide (e.1 ∉ unmatched))).map Prod.snd

/-! ### generate_combinations: tokenize and classify -/

/-- Helper for `tokenize`: `cur` is the current token reversed, `level` the
parenthesis nesting level (a Python `int`; it can go negative on
unbalanced input, and a space splits tokens only at level exactly 0). -/
def tokenizeAux : List Char → List Char → Int → List (List Char)
  | [], cur, _ => if cur.isEmpty then [] else [cur.reverse]
  | ch :: rest, cur, level =>
    if ch = '(' then tokenizeAux rest (ch :: cur) (level + 1)
    else if ch = ')' then tokenizeAux rest (ch :: cur) (level - 1)
    else if pyIsSpace ch ∧ level = 0 then
      (if cur.isEmpty then [] else [cur.reverse]) ++ tokenizeAux rest [] level
    else tokenizeAux rest (ch :: cur) level

/-- The nested `tokenize` of `generate_combinations` (lines 108-130). -/
def tokenize (phrase : List Char) : List (List Char) :=
  tokenizeAux phrase [] 0

/-- The nested `is_parenthetical` (lines 132-134):
`re.fullmatch(r"\([^()]*\)", token)` — one `(`, a run of non-paren
characters, one `)`, covering the whole token. -/
def is_parenthetical (t : List Char) : Bool :=
  match t with
  | '(' :: rest =>
    match rest.getLast? with
    | some ')' => rest.dropLast.all (fun ch => ch != '(' && ch != ')')
    | _ => false
  | _ => false

/-- The nested `is_attached_parenthetical` (lines 136-138). -/
def is_attached_parenthetical (t : List Char) : Bool :=
  t.contains '(' && t.contains ')' && !(is_parenthetical t)

/-! ### The attached-parenthetical resolver -/

/-- Scan the characters after a `(` for the group's content: succeeds at
the first `)` provided no `(` intervenes (the regex `([^()]*?)\)`). -/
def scanContent : List Char → Option (List Char × List Char)
  | [] => none
  | ch :: rest =>
    if ch = ')' then some ([], rest)
    else if ch = '(' then none
    else
      match scanContent rest with
      | none => none
      | some (ctt, sfx) => some (ch :: ctt, sfx)

/-- The anchored part `^([^()]*?)\(([^()]*?)\)` of the regex at line 143:
the prefix is the (paren-free) run before the first paren character, which
must be `(`, and the content runs to the next paren character, which must
be `)`.  Returns `(prefix, content, rest-after-the-close-paren)`. -/
def splitFirstGroupRaw : List Char → Option (List Char × List Char × List Char)
  | [] => none
  | ch :: rest =>
    if ch = '(' then
      match scanContent rest with
      | none => none
      | some (ctt, sfx) => some ([], ctt, sfx)
    else if ch = ')' then none
    else
      match splitFirstGroupRaw rest with
      | none => none
      | some (pfx, ctt, sfx) => some (ch :: pfx, ctt, sfx)

/-- Whether a list of characters is newline-free. -/
def noNewline (l : List Char) : Bool :=
  l.all (fun ch => ch != '\n')

/-- The full regex match of line 143, `^([^()]*?)\(([^()]*?)\)(.*)$`, with
Python semantics of `.` (it does not match a newline) and `$` (it also
matches just before one final newline): the trailing `(.*)$` accepts the
text after the group only if it has no newline, or exactly one final
newline, which is then left out of the captured suffix.  Otherwise the
whole match fails and the token is treated as plain (line 145). -/
def splitFirstGroup (t : List Char) : Option (List Char × List Char × List Char) :=
  match splitFirstGroupRaw t with
  | none => none
  | some (pfx, ctt, sfx) =>
    if noNewline sfx then some (pfx, ctt, sfx)
    else if sfx.getLast? == some '\n' && noNewline sfx.dropLast then
      some (pfx, ctt, sfx.dropLast)
    else none

/-- Fuelled body of `process_attached_parenthetical` (lines 140-157).  Each
recursive call drops at least the two paren characters, so any fuel above
the token length makes the fuel case unreachable (`papGo_fuel`). -/
def papGo : Nat → List Char → List (List Char)
  | 0, t => [t]
  | fuel + 1, t =>
    match splitFirstGroup t with
    | none => [t]
    | some (pfx, ctt, sfx) =>
      let kept := papGo fuel (pfx ++ ctt ++ sfx)
      let nxt := pfx ++ sfx
      if nxt ≠ [] ∧ nxt ≠ t then dedupF (kept ++ papGo fuel nxt)
      else if nxt ≠ [] then dedupF (kept ++ [nxt])
      else dedupF kept

/-- `process_attached_parenthetical` (lines 140-157): resolve the leftmost
group (keep it or drop it, recursively), deduplicate keeping first
occurrences. -/
def process_attached_parenthetical (t : List Char) : List (List Char) :=
  papGo (t.length + 1) t

/-- Modelled from the spec, for comparison with the code: stage C of the
spec says the resolver splits a token at the first non-nested `(...)`
group whenever one exists (no newline restriction; the spec's words have
no counterpart of Python's `.`-does-not-match-newline behaviour).  This is
`process_attached_parenthetical` with the plain leftmost-group split. -/
def papSpecGo : Nat → List Char → List (List Char)
  | 0, t => [t]
  | fuel + 1, t =>
    match splitFirstGroupRaw t with
    | none => [t]
    | some (pfx, ctt, sfx) =>
      let kept := papSpecGo fuel (pfx ++ ctt ++ sfx)
      let nxt := pfx ++ sfx
      if nxt ≠ [] ∧ nxt ≠ t then dedupF (kept ++ papSpecGo fuel nxt)
      else if nxt ≠ [] then dedupF (kept ++ [nxt])
      else dedupF kept

/-- Modelled from the spec: the spec-described attached resolver (see
`papSpecGo`). -/
def process_attached_spec (t : List Char) : List (List Char) :=
  papSpecGo (t.length + 1) t

/-! ### Standalone groups, segments, cross products, slashes -/

/-- `process_standalone_group` (lines 159-170): for contents `c1 … cn` the
candidates are the `n+1` space-joined, stripped suffixes (drop a growing
prefix of the run); the final filter of the source keeps empty candidates
unless the whole candidate list is `[""]` (which only happens for an empty
group, already returned as `[""]`). -/
def process_standalone_group (grp : List (List Char)) : List (List Char) :=
  if grp.isEmpty then [[]]
  else
    let contents := grp.map (fun t => (t.drop 1).dropLast)
    let combos := (List.range (contents.length + 1)).map
      (fun i => pyStrip (joinSpace (contents.drop i)))
    combos.filter (fun cand => !cand.isEmpty || combos != [[]])

/-- The segment-building loop of `generate_combinations` (lines 179-194),
with `grp` the pending run of standalone-parenthetical tokens (reversed):
an attached token contributes its resolver's candidates, a maximal run of
standalone parentheticals contributes one `process_standalone_group`
segment, any other token is its own single-candidate segment. -/
def bsAux : List (List Char) → List (List Char) → List (List (List Char))
  | grp, [] => if grp.isEmpty then [] else [process_standalone_group grp.reverse]
  | grp, t :: ts =>
    if is_attached_parenthetical t then
      (if grp.isEmpty then [] else [process_standalone_group grp.reverse]) ++
        (process_attached_parenthetical t :: bsAux [] ts)
    else if is_parenthetical t then bsAux (t :: grp) ts
    else
      (if grp.isEmpty then [] else [process_standalone_group grp.reverse]) ++
        ([t] :: bsAux [] ts)

/-- The list of segments of a token list (the `segments` variable after the
loop of lines 179-194). -/
def buildSegments (tokens : List (List Char)) : List (List (List Char)) :=
  bsAux [] tokens

/-- `itertools.product(*segments)`: all ways of picking one candidate from
each segment, in order. -/
def listProd : List (List (List Char)) → List (List (List Char))
  | [] => [[]]
  | seg :: rest => seg.flatMap (fun x => (listProd rest).map (fun combo => x :: combo))

/-- The slash loop of `generate_combinations` (lines 206-231), translated
with `prev` standing for `words[i-1]` (`none` at `i = 0`) and the list
argument for `words[i:]`; `alts` is `current_alternatives` and `segs` the
accumulated `segments`.  A `/` with a following word is skipped; a word
right after a `/` joins the pending alternatives; otherwise pending
alternatives are flushed and the word either opens a new alternative run
(when followed by `/`) or forms its own segment. -/
def slashSegs : Option (List Char) → List (List Char) → List (List Char) →
    List (List (List Char)) → List (List (List Char))
  | _, [], alts, segs => if alts.isEmpty then segs else segs ++ [alts]
  | prev, [w], alts, segs =>
    if prev = some ['/'] then segs ++ [alts ++ [w]]
    else (if alts.isEmpty then segs else segs ++ [alts]) ++ [[w]]
  | prev, w :: r1 :: rest2, alts, segs =>
    if w = ['/'] then slashSegs (some w) (r1 :: rest2) alts segs
    else if prev = some ['/'] then slashSegs (some w) (r1 :: rest2) (alts ++ [w]) segs
    else
      let segs2 := if alts.isEmpty then segs else segs ++ [alts]
      if r1 = ['/'] then slashSegs (some r1) rest2 [w] segs2
      else slashSegs (some w) (r1 :: rest2) [] (segs2 ++ [[w]])

/-- The alternation segments of one intermediate phrase. -/
def slashSegments (words : List (List Char)) : List (List (List Char)) :=
  slashSegs none words [] []

/-- The final phrases contributed by one intermediate phrase
(lines 206-235): split into words, build the alternation segments, and
normalize the join of every segment choice. -/
def finalsOfIntermediate (im : List Char) : List (List Char) :=
  let words := wsSplit (pyStrip im)
  let segs := slashSegments words
  (listProd segs).map (fun combo => normalize_space (joinSpace combo))

/-- All final phrases of `generate_combinations` before the closing
`sorted(set(...))` (lines 175-235): tokenize, build segments, join and
normalize each segment choice, drop blank intermediates, then resolve
slashes in each intermediate. -/
def gcFinals (phrase : List Char) : List (List Char) :=
  let tokens := tokenize phrase
  let segments := buildSegments tokens
  let inter1 := (listProd segments).map (fun combo => pyStrip (joinSpace combo))
  let inters := (inter1.filter (fun p => !(pyStrip p).isEmpty)).map normalize_space
  inters.flatMap finalsOfIntermediate

/-- Python string `<`: strict lexicographic comparison by code point. -/
def charListLt : List Char → List Char → Bool
  | [], [] => false
  | [], _ :: _ => true
  | _ :: _, [] => false
  | a :: as, b :: bs =>
    if a.toNat < b.toNat then true
    else if b.toNat < a.toNat then false
    else charListLt as bs

/-- The matching non-strict comparison. -/
def charListLe (a b : List Char) : Bool :=
  !(charListLt b a)

/-- Python `sorted(list(set(l)))` on strings: sort ascending in code-point
lexicographic order and drop duplicates. -/
def pySortedSet (l : List (List Char)) : List (List Char) :=
  (l.insertionSort (fun a b => charListLe a b = true)).dedup

/-- `generate_combinations` (lines 99-239): the expander.  Returns `[]` for
blank input, otherwise the sorted deduplicated final phrases. -/
def generate_combinations (s : String) : List String :=
  if (pyStrip s.toList).isEmpty then []
  else (pySortedSet (gcFinals s.toList)).map String.mk

/-! ### Renderings used to state the claims -/

/-- The text inside a standalone parenthetical token (`t[1:-1]`). -/
def contentOf (t : List Char) : List Char :=
  (t.drop 1).dropLast

/-- How one alternation group appears in an intermediate phrase's word
list: its candidate words separated by `/` words. -/
def renderGroup (g : List (List Char)) : List (List Char) :=
  g.intersperse ['/']

/-- A word list made of consecutive alternation groups. -/
def renderGroups (gs : List (List (List Char))) : List (List Char) :=
  (gs.map renderGroup).flatten

/-- Balance of one bracket pair, ignoring all other characters: every
prefix has at least as many openers as closers, and the totals agree. -/
def balancedFor (o c : Char) (l : List Char) : Prop :=
  (∀ n, (l.take n).count c ≤ (l.take n).count o) ∧ l.count o = l.count c

/-- No parenthesis characters. -/
def parenFree (l : List Char) : Prop :=
  ∀ ch ∈ l, ch ≠ '(' ∧ ch ≠ ')'

/-- The final `unmatched` position set of `remove_unmatched_brackets`
(line 76 of the source): the unmatched-closer indices together with the
indices of the openers left on the stack. -/
def rubUnmatched (s : List Char) : List Nat :=
  (rubScan s.enum [] []).2 ++ (rubScan s.enum [] []).1.map Prod.snd

/-- Single-pair Dyck checker used to reason about bracket balance: scan a
character list keeping the number of currently open `o`-brackets, starting
from `d`; a closer `c` must find a positive depth, every other character is
ignored, and the scan must end at depth `0`. -/
def dyckD (o c : Char) : Nat → List Char → Bool
  | d, [] => d == 0
  | d, x :: xs =>
    if x == c then d != 0 && dyckD o c (d - 1) xs
    else if x == o then dyckD o c (d + 1) xs
    else dyckD o c d xs

/-! ## Proofs -/

theorem scanContent_decomp :
    ∀ l ctt sfx : List Char, scanContent l = some (ctt, sfx) →
      l = ctt ++ ')' :: sfx ∧ parenFree ctt := by
  intro l
  induction l with
  | nil => intro ctt sfx h; simp [scanContent] at h
  | cons ch rest ih =>
    intro ctt sfx h
    by_cases h1 : ch = ')'
    · subst h1
      simp only [scanContent, if_pos rfl, Option.some.injEq, Prod.mk.injEq] at h
      obtain ⟨rfl, rfl⟩ := h
      exact ⟨rfl, by intro x hx; simp at hx⟩
    · by_cases h2 : ch = '('
      · subst h2; simp [scanContent] at h
      · simp only [scanContent, if_neg h1, if_neg h2] at h
        cases hrec : scanContent rest with
        | none => rw [hrec] at h; simp at h
        | some pr =>
          obtain ⟨c2, s2⟩ := pr
          rw [hrec] at h
          simp only [Option.some.injEq, Prod.mk.injEq] at h
          obtain ⟨rfl, rfl⟩ := h
          obtain ⟨hl, hfa⟩ := ih c2 s2 hrec
          refine ⟨by simp [hl], ?_⟩
          intro x hx
          rcases List.mem_cons.1 hx with hx | hx
          · subst hx; exact ⟨h2, h1⟩
          · exact hfa x hx

theorem splitFirstGroupRaw_decomp :
    ∀ t pfx ctt sfx : List Char, splitFirstGroupRaw t = some (pfx, ctt, sfx) →
      t = pfx ++ '(' :: (ctt ++ ')' :: sfx) ∧ parenFree pfx ∧ parenFree ctt := by
  intro t
  induction t with
  | nil => intro pfx ctt sfx h; simp [splitFirstGroupRaw] at h
  | cons ch rest ih =>
    intro pfx ctt sfx h
    by_cases h1 : ch = '('
    · subst h1
      simp only [splitFirstGroupRaw, if_pos rfl] at h
      cases hrec : scanContent rest with
      | none => rw [hrec] at h; simp at h
      | some pr =>
        obtain ⟨c2, s2⟩ := pr
        rw [hrec] at h
        simp only [Option.some.injEq, Prod.mk.injEq] at h
        obtain ⟨rfl, rfl, rfl⟩ := h
        obtain ⟨hl, hfa⟩ := scanContent_decomp rest _ _ hrec
        exact ⟨by simp [hl], by intro x hx; simp at hx, hfa⟩
    · by_cases h2 : ch = ')'
      · subst h2; simp [splitFirstGroupRaw, h1] at h
      · simp only [splitFirstGroupRaw, if_neg h1, if_neg h2] at h
        cases hrec : splitFirstGroupRaw rest with
        | none => rw [hrec] at h; simp at h
        | some pr =>
          obtain ⟨p2, c2, s2⟩ := pr
          rw [hrec] at h
          simp only [Option.some.injEq, Prod.mk.injEq] at h
          obtain ⟨rfl, rfl, rfl⟩ := h
          obtain ⟨hl, hfp, hfc⟩ := ih p2 c2 s2 hrec
          refine ⟨by simp [hl], ?_, hfc⟩
          intro x hx
          rcases List.mem_cons.1 hx with hx | hx
          · subst hx; exact ⟨h1, h2⟩
          · exact hfp x hx

/-- Any successful split decomposes the token, possibly dropping one final
newline from the suffix (Python `$` matching before a final newline). -/
theorem splitFirstGroup_decomp {t pfx ctt sfx : List Char}
    (h : splitFirstGroup t = some (pfx, ctt, sfx)) :
    (t = pfx ++ '(' :: (ctt ++ ')' :: sfx) ∨
      t = pfx ++ '(' :: (ctt ++ ')' :: (sfx ++ ['\n']))) ∧
      parenFree pfx ∧ parenFree ctt := by
  cases hraw : splitFirstGroupRaw t with
  | none => rw [splitFirstGroup, hraw] at h; simp at h
  | some pr =>
    obtain ⟨p2, c2, s2⟩ := pr
    simp only [splitFirstGroup, hraw] at h
    obtain ⟨hl, hfp, hfc⟩ := splitFirstGroupRaw_decomp t p2 c2 s2 hraw
    by_cases hn : noNewline s2
    · rw [if_pos hn] at h
      simp only [Option.some.injEq, Prod.mk.injEq] at h
      obtain ⟨rfl, rfl, rfl⟩ := h
      exact ⟨Or.inl hl, hfp, hfc⟩
    · rw [if_neg hn] at h
      by_cases hn2 : s2.getLast? == some '\n' && noNewline s2.dropLast
      · rw [if_pos hn2] at h
        simp only [Option.some.injEq, Prod.mk.injEq] at h
        obtain ⟨rfl, rfl, rfl⟩ := h
        refine ⟨Or.inr ?_, hfp, hfc⟩
        have hlast : s2.getLast? = some '\n' := by
          rw [Bool.and_eq_true] at hn2
          simpa using hn2.1
        have hne : s2 ≠ [] := by
          intro hemp; rw [hemp] at hlast; simp at hlast
        have hgl : s2.getLast hne = '\n' := by
          have hq := List.getLast?_eq_getLast s2 hne
          rw [hq] at hlast
          exact Option.some.inj hlast
        have hs2 : s2.dropLast ++ ['\n'] = s2 := by
          have h2 := List.dropLast_append_getLast hne
          rwa [hgl] at h2
        rw [hl, hs2]
      · rw [if_neg hn2] at h; simp at h

theorem splitFirstGroup_lengths {t pfx ctt sfx : List Char}
    (h : splitFirstGroup t = some (pfx, ctt, sfx)) :
    pfx.length + ctt.length + sfx.length + 2 ≤ t.length := by
  obtain ⟨hdec, -, -⟩ := splitFirstGroup_decomp h
  rcases hdec with hdec | hdec <;> rw [hdec] <;> simp <;> omega

/-- Fuel above the token length is enough for `papGo`. -/
theorem papGo_fuel :
    ∀ n : Nat, ∀ f1 f2 : Nat, ∀ t : List Char, t.length ≤ n →
      t.length < f1 → t.length < f2 → papGo f1 t = papGo f2 t := by
  intro n
  induction n with
  | zero =>
    intro f1 f2 t hn h1 h2
    have ht : t = [] := List.length_eq_zero.1 (Nat.le_zero.1 hn)
    subst ht
    cases f1 with
    | zero => omega
    | succ k1 =>
      cases f2 with
      | zero => omega
      | succ k2 => rfl
  | succ m ih =>
    intro f1 f2 t hn h1 h2
    cases f1 with
    | zero => omega
    | succ k1 =>
      cases f2 with
      | zero => omega
      | succ k2 =>
        cases hsp : splitFirstGroup t with
        | none => simp only [papGo, hsp]
        | some pr =>
          obtain ⟨pfx, ctt, sfx⟩ := pr
          have hlen := splitFirstGroup_lengths hsp
          have hkeep : (pfx ++ ctt ++ sfx).length ≤ m ∧
              (pfx ++ ctt ++ sfx).length < k1 ∧ (pfx ++ ctt ++ sfx).length < k2 := by
            simp only [List.length_append]; omega
          have hdrop : (pfx ++ sfx).length ≤ m ∧
              (pfx ++ sfx).length < k1 ∧ (pfx ++ sfx).length < k2 := by
            simp only [List.length_append]; omega
          simp only [papGo, hsp]
          rw [ih k1 k2 _ hkeep.1 hkeep.2.1 hkeep.2.2,
            ih k1 k2 _ hdrop.1 hdrop.2.1 hdrop.2.2]

/-- The recursion equation of `process_attached_parenthetical`: resolve
the leftmost group by keeping it or (guardedly) dropping it, then
deduplicate keeping first occurrences. -/
theorem pap_unfold (t : List Char) :
    process_attached_parenthetical t =
      match splitFirstGroup t with
      | none => [t]
      | some (pfx, ctt, sfx) =>
        let kept := process_attached_parenthetical (pfx ++ ctt ++ sfx)
        let nxt := pfx ++ sfx
        if nxt ≠ [] ∧ nxt ≠ t then
          dedupF (kept ++ process_attached_parenthetical nxt)
        else if nxt ≠ [] then dedupF (kept ++ [nxt])
        else dedupF kept := by
  show papGo (t.length + 1) t = _
  cases hsp : splitFirstGroup t with
  | none => simp only [papGo, hsp]
  | some pr =>
    obtain ⟨pfx, ctt, sfx⟩ := pr
    have hlen := splitFirstGroup_lengths hsp
    simp only [papGo, hsp]
    have e1 : papGo t.length (pfx ++ ctt ++ sfx) =
        process_attached_parenthetical (pfx ++ ctt ++ sfx) := by
      apply papGo_fuel (pfx ++ ctt ++ sfx).length
      · exact le_rfl
      · simp only [List.length_append]; omega
      · omega
    have e2 : papGo t.length (pfx ++ sfx) =
        process_attached_parenthetical (pfx ++ sfx) := by
      apply papGo_fuel (pfx ++ sfx).length
      · exact le_rfl
      · simp only [List.length_append]; omega
      · omega
    rw [e1, e2]

/-- C8: For every token on which the leftmost-group split succeeds, both
strings handed to the recursive calls of the attached-parenthetical
resolver (group kept: prefix+content+suffix; group dropped:
prefix+suffix) are strictly shorter than the token, so the recursion is
well-founded on every string input. -/
theorem C8_recursion_decreasing (t pfx ctt sfx : List Char)
    (h : splitFirstGroup t = some (pfx, ctt, sfx)) :
    (pfx ++ ctt ++ sfx).length < t.length ∧ (pfx ++ sfx).length < t.length := by
  have := splitFirstGroup_lengths h
  constructor <;> simp only [List.length_append] <;> omega

/-- Witness for C8 at the concrete token `a(b)c`. -/
theorem C8_recursion_decreasing_witness :
    (("a".toList ++ "b".toList ++ "c".toList).length < "a(b)c".toList.length ∧
      ("a".toList ++ "c".toList).length < "a(b)c".toList.length) :=
  C8_recursion_decreasing "a(b)c".toList "a".toList "b".toList "c".toList (by decide)

/-- C5: blank input (empty trim) yields the empty sequence. -/
theorem C5_blank_input_empty (s : String) (h : pyStrip s.toList = []) :
    generate_combinations s = [] := by
  have hb : (pyStrip s.toList).isEmpty = true := by
    rw [List.isEmpty_iff]; exact h
  unfold generate_combinations
  rw [if_pos hb]

/-- Witness for C5 at the empty and the all-whitespace input. -/
theorem C5_blank_input_empty_witness :
    generate_combinations "" = [] ∧ generate_combinations "   " = [] :=
  ⟨C5_blank_input_empty "" (by decide), C5_blank_input_empty "   " (by decide)⟩

/-- C2 counterexample: the token `(a)(b\nc)` contains a leftmost non-nested
parenthetical group (the raw split succeeds on `(a)`), yet the resolver
returns the token untouched instead of the deduplicated union the claim
describes (computed by the spec-modelled resolver), because Python's `.`
in the regex `^([^()]*?)\(([^()]*?)\)(.*)$` does not match the newline in
the text after the group. -/
theorem C2_counterexample :
    splitFirstGroupRaw "(a)(b\nc)".toList = some ([], "a".toList, "(b\nc)".toList) ∧
    process_attached_parenthetical "(a)(b\nc)".toList = ["(a)(b\nc)".toList] ∧
    process_attached_spec "(a)(b\nc)".toList =
      ["ab\nc".toList, "a".toList, "b\nc".toList] ∧
    process_attached_parenthetical "(a)(b\nc)".toList ≠
      process_attached_spec "(a)(b\nc)".toList :=
  ⟨by decide, by decide, by decide, by decide⟩

/-- C2 (amended): whenever the leftmost-group regex match succeeds — the
text after the group's `)` has no newline, except possibly one final
newline which is then dropped from the suffix — the resolver splits the
token at the leftmost group (paren-free prefix and content) and returns
the order-preserving deduplicated union of resolving prefix+content+suffix
and of the guarded drop branch; a token with no successful match resolves
to the one-element list containing itself; and the attached multi-group
example expands as claimed. -/
theorem C2_attached_resolver_amended :
    (∀ t pfx ctt sfx : List Char, splitFirstGroup t = some (pfx, ctt, sfx) →
      (t = pfx ++ '(' :: (ctt ++ ')' :: sfx) ∨
        t = pfx ++ '(' :: (ctt ++ ')' :: (sfx ++ ['\n']))) ∧
      parenFree pfx ∧ parenFree ctt ∧
      process_attached_parenthetical t =
        dedupF (process_attached_parenthetical (pfx ++ ctt ++ sfx) ++
          (if pfx ++ sfx ≠ [] ∧ pfx ++ sfx ≠ t then
            process_attached_parenthetical (pfx ++ sfx)
          else if pfx ++ sfx ≠ [] then [pfx ++ sfx] else []))) ∧
    (∀ t : List Char, splitFirstGroup t = none →
      process_attached_parenthetical t = [t]) ∧
    generate_combinations "a(a)x(b)(c)" =
      ["aax", "aaxb", "aaxbc", "aaxc", "ax", "axb", "axbc", "axc"] := by
  refine ⟨?_, ?_, by decide⟩
  · intro t pfx ctt sfx h
    obtain ⟨hdec, hfp, hfc⟩ := splitFirstGroup_decomp h
    refine ⟨hdec, hfp, hfc, ?_⟩
    conv_lhs => rw [pap_unfold t]
    simp only [h]
    by_cases h1 : pfx ++ sfx ≠ [] ∧ pfx ++ sfx ≠ t
    · rw [if_pos h1, if_pos h1]
    · rw [if_neg h1, if_neg h1]
      by_cases h2 : pfx ++ sfx ≠ []
      · rw [if_pos h2, if_pos h2]
      · rw [if_neg h2, if_neg h2, List.append_nil]
  · intro t h
    conv_lhs => rw [pap_unfold t]
    simp only [h]

/-- Witness for the amended C2 at the concrete token `a(b)c`. -/
theorem C2_attached_resolver_amended_witness :
    process_attached_parenthetical "a(b)c".toList =
      dedupF (process_attached_parenthetical ("a".toList ++ "b".toList ++ "c".toList) ++
        (if "a".toList ++ "c".toList ≠ [] ∧ "a".toList ++ "c".toList ≠ "a(b)c".toList then
          process_attached_parenthetical ("a".toList ++ "c".toList)
        else if "a".toList ++ "c".toList ≠ [] then ["a".toList ++ "c".toList] else [])) :=
  (C2_attached_resolver_amended.1 "a(b)c".toList "a".toList "b".toList "c".toList
    (by decide)).2.2.2

theorem scanContent_of_parenFree :
    ∀ mid sfx : List Char, parenFree mid →
      scanContent (mid ++ ')' :: sfx) = some (mid, sfx) := by
  intro mid
  induction mid with
  | nil => intro sfx _; simp [scanContent]
  | cons ch rest ih =>
    intro sfx hpf
    have hch := hpf ch (by simp)
    have ihh := ih sfx (fun x hx => hpf x (by simp [hx]))
    simp only [List.cons_append, scanContent, if_neg hch.2, if_neg hch.1,
      List.append_eq, ihh]

/-- A standalone parenthetical token always has a successful leftmost
split, with empty prefix and suffix. -/
theorem is_parenthetical_split {t : List Char} (h : is_parenthetical t = true) :
    ∃ ctt, splitFirstGroup t = some ([], ctt, []) := by
  unfold is_parenthetical at h
  split at h
  case h_2 => exact absurd h (by simp)
  case h_1 rest =>
    split at h
    case h_2 => exact absurd h (by simp)
    case h_1 hlast =>
      have hne : rest ≠ [] := by
        intro hemp; rw [hemp] at hlast; simp at hlast
      have hgl : rest.getLast hne = ')' := by
        have hq := List.getLast?_eq_getLast rest hne
        rw [hq] at hlast
        exact Option.some.inj hlast
      have hrest : rest.dropLast ++ [')'] = rest := by
        have h2 := List.dropLast_append_getLast hne
        rwa [hgl] at h2
      have hpf : parenFree rest.dropLast := by
        intro x hx
        have hall := List.all_eq_true.1 h x hx
        constructor
        · exact bne_iff_ne.1 (Bool.and_elim_left hall)
        · exact bne_iff_ne.1 (Bool.and_elim_right hall)
      refine ⟨rest.dropLast, ?_⟩
      have hraw : splitFirstGroupRaw ('(' :: rest) = some ([], rest.dropLast, []) := by
        have hsc : scanContent rest = some (rest.dropLast, []) := by
          conv_lhs => rw [← hrest]
          exact scanContent_of_parenFree rest.dropLast [] hpf
        simp [splitFirstGroupRaw, hsc]
      simp [splitFirstGroup, hraw, noNewline]

/-- C7: the expander is a total function; a token on which the
leftmost-group match fails (no parenthetical group at all, or unbalanced
or otherwise unresolvable parens) degrades to a literal plain token: the
resolver returns it unchanged and its segment in the segment-building
loop is the single-candidate segment containing the token itself. -/
theorem C7_total_fallback (t : List Char) (ts : List (List Char))
    (h : splitFirstGroup t = none) :
    process_attached_parenthetical t = [t] ∧
      buildSegments (t :: ts) = [t] :: buildSegments ts := by
  have hpap : process_attached_parenthetical t = [t] := by
    conv_lhs => rw [pap_unfold t]
    simp only [h]
  refine ⟨hpap, ?_⟩
  have hnp : is_parenthetical t = false := by
    cases hip : is_parenthetical t with
    | false => rfl
    | true =>
      obtain ⟨ctt, hsp⟩ := is_parenthetical_split hip
      rw [hsp] at h
      exact absurd h (by simp)
  show bsAux [] (t :: ts) = [t] :: bsAux [] ts
  by_cases hat : is_attached_parenthetical t = true
  · simp only [bsAux, if_pos hat, hpap]
    simp
  · simp only [bsAux, if_neg hat, hnp]
    simp

/-- Witness for C7 at the concrete token `word)`. -/
theorem C7_total_fallback_witness :
    process_attached_parenthetical "word)".toList = ["word)".toList] ∧
      buildSegments ["word)".toList] = ["word)".toList] :: buildSegments [] :=
  C7_total_fallback "word)".toList [] (by decide)

theorem is_parenthetical_not_attached {t : List Char}
    (h : is_parenthetical t = true) : is_attached_parenthetical t = false := by
  simp [is_attached_parenthetical, h]

/-- One-step equation for `bsAux` on an empty token list. -/
theorem bsAux_nil (grp : List (List Char)) :
    bsAux grp [] =
      if grp.isEmpty then [] else [process_standalone_group grp.reverse] := rfl

/-- One-step equation for `bsAux` on a nonempty token list. -/
theorem bsAux_cons (grp : List (List Char)) (t : List Char) (ts : List (List Char)) :
    bsAux grp (t :: ts) =
      if is_attached_parenthetical t = true then
        (if grp.isEmpty then [] else [process_standalone_group grp.reverse]) ++
          (process_attached_parenthetical t :: bsAux [] ts)
      else if is_parenthetical t = true then bsAux (t :: grp) ts
      else
        (if grp.isEmpty then [] else [process_standalone_group grp.reverse]) ++
          ([t] :: bsAux [] ts) := rfl

/-- Standalone tokens are absorbed into the pending run. -/
theorem bsAux_run :
    ∀ run grp rest : List (List Char), (∀ x ∈ run, is_parenthetical x = true) →
      bsAux grp (run ++ rest) = bsAux (run.reverse ++ grp) rest := by
  intro run
  induction run with
  | nil => intro grp rest _; simp
  | cons t run2 ih =>
    intro grp rest hall
    have hpar : is_parenthetical t = true := hall t (by simp)
    have hatt := is_parenthetical_not_attached hpar
    rw [List.cons_append, bsAux_cons, if_neg (by simp [hatt]), if_pos hpar,
      ih (t :: grp) rest (fun x hx => hall x (by simp [hx]))]
    simp [List.append_assoc]

/-- At the end of the tokens, or at a non-standalone token, the pending
run is flushed as one `process_standalone_group` segment. -/
theorem bsAux_flush :
    ∀ grp rest : List (List Char),
      (rest = [] ∨ ∃ r rs, rest = r :: rs ∧ is_parenthetical r = false) →
      bsAux grp rest =
        (if grp.isEmpty then [] else [process_standalone_group grp.reverse]) ++
          bsAux [] rest := by
  intro grp rest hrest
  rcases hrest with rfl | ⟨r, rs, rfl, hr⟩
  · rw [bsAux_nil, bsAux_nil]
    simp
  · rw [bsAux_cons grp r rs, bsAux_cons [] r rs]
    cases hatt : is_attached_parenthetical r with
    | true => simp [hatt]
    | false => simp [hatt, hr]

/-- Segment building distributes over a boundary after a non-standalone
token. -/
theorem bsAux_append :
    ∀ pre grp rest : List (List Char), pre ≠ [] →
      (∀ x, pre.getLast? = some x → is_parenthetical x = false) →
      bsAux grp (pre ++ rest) = bsAux grp pre ++ bsAux [] rest := by
  intro pre
  induction pre with
  | nil => intro grp rest h _; exact absurd rfl h
  | cons t pre2 ih =>
    intro grp rest _ hlast
    cases pre2 with
    | nil =>
      have ht : is_parenthetical t = false := hlast t (by simp)
      rw [List.singleton_append, bsAux_cons grp t rest, bsAux_cons grp t [], bsAux_nil]
      cases hatt : is_attached_parenthetical t with
      | true => simp [hatt]
      | false => simp [hatt, ht]
    | cons p ps =>
      have hlast2 : ∀ x, (p :: ps).getLast? = some x → is_parenthetical x = false := by
        intro x hx
        exact hlast x (by rw [List.getLast?_cons_cons]; exact hx)
      rw [List.cons_append, bsAux_cons grp t ((p :: ps) ++ rest), bsAux_cons grp t (p :: ps)]
      cases hpar : is_parenthetical t with
      | true =>
        have hatt := is_parenthetical_not_attached hpar
        simp only [hatt, hpar, Bool.false_eq_true, if_false, if_true]
        exact ih (t :: grp) rest (by simp) hlast2
      | false =>
        cases hatt : is_attached_parenthetical t with
        | true =>
          simp only [hatt, hpar, Bool.false_eq_true, if_false, if_true]
          rw [ih [] rest (by simp) hlast2]
          simp
        | false =>
          simp only [hatt, hpar, Bool.false_eq_true, if_false, if_true]
          rw [ih [] rest (by simp) hlast2]
          simp

/-- The filter in `process_standalone_group` keeps every candidate of a
nonempty run, so the segment is exactly the `n+1` dropped-prefix suffixes. -/
theorem process_standalone_group_eq (run : List (List Char)) (h : run ≠ []) :
    process_standalone_group run =
      (List.range (run.length + 1)).map
        (fun i => pyStrip (joinSpace ((run.map contentOf).drop i))) := by
  unfold process_standalone_group
  rw [if_neg (by simp [h])]
  dsimp only
  simp only [List.length_map]
  have hfun : (fun t : List Char => (t.drop 1).dropLast) = contentOf := rfl
  rw [hfun]
  apply List.filter_eq_self.2
  intro cand _
  have hne : (List.range (run.length + 1)).map
      (fun i => pyStrip (joinSpace ((run.map contentOf).drop i))) ≠ [[]] := by
    intro heq
    have hl := congrArg List.length heq
    simp only [List.length_map, List.length_range, List.length_singleton] at hl
    exact h (List.length_eq_zero.1 (by omega))
  simp only [Bool.or_eq_true]
  right
  exact bne_iff_ne.2 hne

/-- C1: a maximal run of standalone parentheticals becomes one segment
whose candidates are exactly the `n+1` space-joined trimmed suffixes of
the run's contents (cascading optionality: dropping a parenthetical drops
every parenthetical to its left, and the empty candidate drops all), and
the `(ser) (un) puro nervio` example expands as claimed. -/
theorem C1_standalone_run_segment :
    (∀ pre run post : List (List Char), run ≠ [] →
      (∀ x ∈ run, is_parenthetical x = true) →
      (∀ x, pre.getLast? = some x → is_parenthetical x = false) →
      (∀ x, post.head? = some x → is_parenthetical x = false) →
      buildSegments (pre ++ run ++ post) =
        buildSegments pre ++ process_standalone_group run :: buildSegments post ∧
      process_standalone_group run =
        (List.range (run.length + 1)).map
          (fun i => pyStrip (joinSpace ((run.map contentOf).drop i)))) ∧
    generate_combinations "(ser) (un) puro nervio" =
      ["puro nervio", "ser un puro nervio", "un puro nervio"] := by
  refine ⟨?_, by decide⟩
  intro pre run post hne hall hpre hpost
  refine ⟨?_, process_standalone_group_eq run hne⟩
  have hpost2 : post = [] ∨ ∃ r rs, post = r :: rs ∧ is_parenthetical r = false := by
    cases post with
    | nil => exact Or.inl rfl
    | cons r rs => exact Or.inr ⟨r, rs, rfl, hpost r (by simp)⟩
  have hmid : bsAux [] (run ++ post) =
      process_standalone_group run :: bsAux [] post := by
    rw [bsAux_run run [] post hall, bsAux_flush (run.reverse ++ []) post hpost2]
    have hrev : (run.reverse ++ []).isEmpty = false := by
      simp [List.isEmpty_iff, hne]
    rw [hrev]
    simp
  cases pre with
  | nil => simpa [buildSegments] using hmid
  | cons q qs =>
    unfold buildSegments
    rw [List.append_assoc, bsAux_append (q :: qs) [] (run ++ post) (by simp) hpre, hmid]

/-- Witness for C1 at the run of `(ser) (un) puro nervio`. -/
theorem C1_standalone_run_segment_witness :
    buildSegments ([] ++ ["(ser)".toList, "(un)".toList] ++ ["puro".toList, "nervio".toList]) =
      buildSegments [] ++ process_standalone_group ["(ser)".toList, "(un)".toList] ::
        buildSegments ["puro".toList, "nervio".toList] ∧
    process_standalone_group ["(ser)".toList, "(un)".toList] =
      (List.range (["(ser)".toList, "(un)".toList].length + 1)).map
        (fun i => pyStrip (joinSpace ((["(ser)".toList, "(un)".toList].map contentOf).drop i))) :=
  C1_standalone_run_segment.1 [] ["(ser)".toList, "(un)".toList]
    ["puro".toList, "nervio".toList] (by decide) (by decide)
    (by intro x hx; simp at hx) (by intro x hx; simp at hx; subst hx; decide)

theorem charToNat_inj {a b : Char} (h : a.toNat = b.toNat) : a = b :=
  Char.eq_of_val_eq (by
    have h2 : a.val.toNat = b.val.toNat := h
    exact UInt32.eq_of_val_eq (Fin.ext h2))

theorem charListLt_irrefl : ∀ a : List Char, charListLt a a = false := by
  intro a
  induction a with
  | nil => rfl
  | cons x xs ih => simp [charListLt, ih]

theorem charListLt_eq_of_not :
    ∀ a b : List Char, charListLt a b = false → charListLt b a = false → a = b := by
  intro a
  induction a with
  | nil =>
    intro b h1 _
    cases b with
    | nil => rfl
    | cons y ys => simp [charListLt] at h1
  | cons x xs ih =>
    intro b h1 h2
    cases b with
    | nil => simp [charListLt] at h2
    | cons y ys =>
      by_cases hxy : x.toNat < y.toNat
      · simp [charListLt, hxy] at h1
      · by_cases hyx : y.toNat < x.toNat
        · simp [charListLt, hyx] at h2
        · have hx : x = y := charToNat_inj (by omega)
          subst hx
          have hxs := ih ys (by simpa [charListLt, hxy, hyx] using h1)
            (by simpa [charListLt, hxy, hyx] using h2)
          rw [hxs]

theorem charListLt_trans :
    ∀ a b c : List Char, charListLt a b = true → charListLt b c = true →
      charListLt a c = true := by
  intro a
  induction a with
  | nil =>
    intro b c h1 h2
    cases b with
    | nil => simp [charListLt] at h1
    | cons y ys =>
      cases c with
      | nil => simp [charListLt] at h2
      | cons z zs => simp [charListLt]
  | cons x xs ih =>
    intro b c h1 h2
    cases b with
    | nil => simp [charListLt] at h1
    | cons y ys =>
      cases c with
      | nil => simp [charListLt] at h2
      | cons z zs =>
        simp only [charListLt] at h1 h2 ⊢
        by_cases hxy : x.toNat < y.toNat
        · rw [if_pos hxy] at h1
          by_cases hyz : y.toNat < z.toNat
          · rw [if_pos (by omega)]
          · rw [if_neg hyz] at h2
            by_cases hzy : z.toNat < y.toNat
            · rw [if_pos hzy] at h2; exact absurd h2 (by simp)
            · have hyzeq : y = z := charToNat_inj (by omega)
              subst hyzeq
              rw [if_pos hxy]
        · rw [if_neg hxy] at h1
          by_cases hyx : y.toNat < x.toNat
          · rw [if_pos hyx] at h1; exact absurd h1 (by simp)
          · rw [if_neg hyx] at h1
            have hxyeq : x = y := charToNat_inj (by omega)
            subst hxyeq
            by_cases hxz : x.toNat < z.toNat
            · rw [if_pos hxz]
            · rw [if_neg hxz] at h2 ⊢
              by_cases hzx : z.toNat < x.toNat
              · rw [if_pos hzx] at h2; exact absurd h2 (by simp)
              · rw [if_neg hzx] at h2 ⊢
                exact ih ys zs h1 h2

theorem charListLt_asymm {a b : List Char}
    (h1 : charListLt a b = true) (h2 : charListLt b a = true) : False := by
  have := charListLt_trans a b a h1 h2
  rw [charListLt_irrefl a] at this
  exact Bool.false_ne_true this

instance pyLeIsTotal : IsTotal (List Char) (fun a b => charListLe a b = true) := by
  constructor
  intro a b
  unfold charListLe
  by_cases h1 : charListLt b a = true
  · right
    cases h2 : charListLt a b with
    | false => simp
    | true => exact absurd (charListLt_asymm h2 h1) (by simp)
  · left
    simp [Bool.eq_false_iff.2 (fun hc => h1 hc) ]

instance pyLeIsTrans : IsTrans (List Char) (fun a b => charListLe a b = true) := by
  constructor
  intro a b c h1 h2
  unfold charListLe at h1 h2 ⊢
  simp only [Bool.not_eq_true'] at h1 h2 ⊢
  cases hca : charListLt c a with
  | false => rfl
  | true =>
    exfalso
    cases hbc : charListLt b c with
    | true => exact absurd ((charListLt_trans b c a hbc hca).symm.trans h1) (by simp)
    | false =>
      have hbceq : b = c := charListLt_eq_of_not b c hbc h2
      subst hbceq
      rw [hca] at h1
      exact absurd h1 (by simp)

theorem pySortedSet_sorted (l : List (List Char)) :
    List.Sorted (fun a b => charListLt a b = true) (pySortedSet l) := by
  unfold pySortedSet
  have hs : List.Sorted (fun a b => charListLe a b = true)
      (l.insertionSort (fun a b => charListLe a b = true)) :=
    List.sorted_insertionSort _ l
  have hsub : (l.insertionSort (fun a b => charListLe a b = true)).dedup.Sublist
      (l.insertionSort (fun a b => charListLe a b = true)) :=
    List.dedup_sublist _
  have hs2 : List.Sorted (fun a b => charListLe a b = true)
      (l.insertionSort (fun a b => charListLe a b = true)).dedup :=
    List.Pairwise.sublist hsub hs
  have hnd : (l.insertionSort (fun a b => charListLe a b = true)).dedup.Nodup :=
    List.nodup_dedup _
  have hcomb := List.Pairwise.and hs2 hnd
  refine hcomb.imp ?_
  intro a b hab
  obtain ⟨hle, hne⟩ := hab
  unfold charListLe at hle
  simp only [Bool.not_eq_true'] at hle
  cases hab2 : charListLt a b with
  | true => rfl
  | false => exact absurd (charListLt_eq_of_not a b hab2 hle) hne

theorem pySortedSet_nodup (l : List (List Char)) : (pySortedSet l).Nodup :=
  List.nodup_dedup _

theorem mem_pySortedSet {x : List Char} {l : List (List Char)} :
    x ∈ pySortedSet l ↔ x ∈ l := by
  unfold pySortedSet
  rw [List.mem_dedup]
  exact (List.perm_insertionSort _ l).mem_iff

theorem stringMk_injective : Function.Injective String.mk := by
  intro a b h
  exact congrArg String.data h

/-- C4: the expander's output has no duplicate strings, is sorted strictly
ascending in code-point lexicographic order (`charListLt` compares code
points position by position), and is deterministic: equal inputs give
identical output sequences. -/
theorem C4_sorted_nodup_deterministic (s t : String) (h : s = t) :
    List.Sorted (fun a b : String => charListLt a.toList b.toList = true)
      (generate_combinations s) ∧
    (generate_combinations s).Nodup ∧
    generate_combinations s = generate_combinations t := by
  subst h
  refine ⟨?_, ?_, rfl⟩
  · unfold generate_combinations
    by_cases hb : (pyStrip s.toList).isEmpty = true
    · rw [if_pos hb]; exact List.sorted_nil
    · rw [if_neg hb]
      rw [List.Sorted, List.pairwise_map]
      exact pySortedSet_sorted _
  · unfold generate_combinations
    by_cases hb : (pyStrip s.toList).isEmpty = true
    · rw [if_pos hb]; exact List.nodup_nil
    · rw [if_neg hb]
      exact (pySortedSet_nodup _).map stringMk_injective

/-- Witness for C4 at the input `gato / felino`. -/
theorem C4_sorted_nodup_deterministic_witness :
    List.Sorted (fun a b : String => charListLt a.toList b.toList = true)
      (generate_combinations "gato / felino") ∧
    (generate_combinations "gato / felino").Nodup ∧
    generate_combinations "gato / felino" = generate_combinations "gato / felino" :=
  C4_sorted_nodup_deterministic "gato / felino" "gato / felino" rfl

/-- One-step equation for `slashSegs` at the end of the word list. -/
theorem slashSegs_nil (prev : Option (List Char)) (alts : List (List Char))
    (segs : List (List (List Char))) :
    slashSegs prev [] alts segs = if alts.isEmpty then segs else segs ++ [alts] := rfl

/-- One-step equation for `slashSegs` at the last word. -/
theorem slashSegs_one (prev : Option (List Char)) (w : List Char)
    (alts : List (List Char)) (segs : List (List (List Char))) :
    slashSegs prev [w] alts segs =
      if prev = some ['/'] then segs ++ [alts ++ [w]]
      else (if alts.isEmpty then segs else segs ++ [alts]) ++ [[w]] := rfl

/-- One-step equation for `slashSegs` with at least two words left. -/
theorem slashSegs_cons2 (prev : Option (List Char)) (w r1 : List Char)
    (rest2 alts : List (List Char)) (segs : List (List (List Char))) :
    slashSegs prev (w :: r1 :: rest2) alts segs =
      if w = ['/'] then slashSegs (some w) (r1 :: rest2) alts segs
      else if prev = some ['/'] then
        slashSegs (some w) (r1 :: rest2) (alts ++ [w]) segs
      else
        if r1 = ['/'] then
          slashSegs (some r1) rest2 [w] (if alts.isEmpty then segs else segs ++ [alts])
        else
          slashSegs (some w) (r1 :: rest2) []
            ((if alts.isEmpty then segs else segs ++ [alts]) ++ [[w]]) := rfl

theorem renderGroup_one (v : List Char) : renderGroup [v] = [v] := rfl

theorem renderGroup_cons2 (v v2 : List Char) (vs2 : List (List Char)) :
    renderGroup (v :: v2 :: vs2) = v :: ['/'] :: renderGroup (v2 :: vs2) := rfl

theorem renderGroup_shape (w2 : List Char) (ws2 : List (List Char)) :
    ∃ tl, renderGroup (w2 :: ws2) = w2 :: tl := by
  cases ws2 with
  | nil => exact ⟨[], rfl⟩
  | cons a l => exact ⟨['/'] :: renderGroup (a :: l), rfl⟩

theorem renderGroups_nil : renderGroups [] = [] := rfl

theorem renderGroups_cons (g : List (List Char)) (gs : List (List (List Char))) :
    renderGroups (g :: gs) = renderGroup g ++ renderGroups gs := by
  simp [renderGroups]

/-- Consuming the remaining words of an alternation group right after a
separator: every word joins the pending alternatives, and the scan
continues behind the group with `prev` set to some non-separator word of
the group. -/
theorem slashSegs_group :
    ∀ vs : List (List Char), ∀ v : List Char, ∀ tail alts : List (List Char),
      ∀ segs : List (List (List Char)),
      (∀ w ∈ v :: vs, w ≠ ['/']) →
      ∃ w', w' ∈ v :: vs ∧
        slashSegs (some ['/']) (renderGroup (v :: vs) ++ tail) alts segs =
          slashSegs (some w') tail (alts ++ v :: vs) segs := by
  intro vs
  induction vs with
  | nil =>
    intro v tail alts segs hg
    refine ⟨v, by simp, ?_⟩
    rw [renderGroup_one]
    cases tail with
    | nil =>
      rw [List.append_nil, slashSegs_one, if_pos rfl, slashSegs_nil]
      simp
    | cons t1 t2 =>
      rw [List.cons_append, List.nil_append, slashSegs_cons2,
        if_neg (hg v (by simp)), if_pos rfl]
  | cons v2 vs2 ih =>
    intro v tail alts segs hg
    have hg2 : ∀ w ∈ v2 :: vs2, w ≠ ['/'] := fun w hw => hg w (by simp [List.mem_cons] at hw ⊢; tauto)
    obtain ⟨w', hw', heq⟩ := ih v2 tail (alts ++ [v]) segs hg2
    refine ⟨w', by simp [List.mem_cons] at hw' ⊢; tauto, ?_⟩
    rw [renderGroup_cons2, List.cons_append, List.cons_append, slashSegs_cons2,
      if_neg (hg v (by simp)), if_pos rfl]
    have hrg : renderGroup (v2 :: vs2) ++ tail ≠ [] := by
      obtain ⟨tl, htl⟩ := renderGroup_shape v2 vs2
      simp [htl]
    obtain ⟨tl, htl⟩ := renderGroup_shape v2 vs2
    rw [htl, List.cons_append, slashSegs_cons2, if_pos rfl, ← List.cons_append, ← htl, heq]
    simp

/-- Rendering a list of alternation groups and re-scanning recovers
exactly the groups. -/
theorem slashSegs_render :
    ∀ gs : List (List (List Char)), ∀ prev : Option (List Char),
      ∀ alts : List (List Char), ∀ segs : List (List (List Char)),
      prev ≠ some ['/'] →
      (∀ g ∈ gs, g ≠ [] ∧ ∀ w ∈ g, w ≠ ['/']) →
      slashSegs prev (renderGroups gs) alts segs =
        segs ++ (if alts.isEmpty then [] else [alts]) ++ gs := by
  intro gs
  induction gs with
  | nil =>
    intro prev alts segs _ _
    rw [renderGroups_nil, slashSegs_nil]
    by_cases ha : alts.isEmpty <;> simp [ha]
  | cons g gs2 ih =>
    intro prev alts segs hprev hgs
    obtain ⟨hgne, hgslash⟩ := hgs g (by simp)
    obtain ⟨v, vs, rfl⟩ := List.exists_cons_of_ne_nil hgne
    have hgs2 : ∀ g2 ∈ gs2, g2 ≠ [] ∧ ∀ w ∈ g2, w ≠ ['/'] :=
      fun g2 hg2 => hgs g2 (by simp [hg2])
    rw [renderGroups_cons]
    cases vs with
    | nil =>
      rw [renderGroup_one, List.singleton_append]
      cases gs2 with
      | nil =>
        rw [renderGroups_nil, slashSegs_one, if_neg hprev]
        by_cases ha : alts.isEmpty <;> simp [ha]
      | cons g2 gs3 =>
        obtain ⟨hg2ne, hg2slash⟩ := hgs2 g2 (by simp)
        obtain ⟨w2, ws2, rfl⟩ := List.exists_cons_of_ne_nil hg2ne
        obtain ⟨tl, htl⟩ := renderGroup_shape w2 ws2
        rw [renderGroups_cons, htl, List.cons_append, slashSegs_cons2,
          if_neg (hgslash v (by simp)), if_neg hprev,
          if_neg (hg2slash w2 (by simp)), ← List.cons_append, ← htl,
          ← renderGroups_cons]
        rw [ih (some v) [] _ (by simp [hgslash v (by simp)]) hgs2]
        by_cases ha : alts.isEmpty <;> simp [ha]
    | cons v2 vs2 =>
      rw [renderGroup_cons2, List.cons_append, List.cons_append, slashSegs_cons2,
        if_neg (hgslash v (by simp)), if_neg hprev, if_pos rfl]
      have hvslash : ∀ w ∈ v2 :: vs2, w ≠ ['/'] := by
        intro w hw
        apply hgslash w
        simp [List.mem_cons] at hw ⊢
        tauto
      obtain ⟨w', hw', heq⟩ := slashSegs_group vs2 v2 (renderGroups gs2) [v]
        (if alts.isEmpty then segs else segs ++ [alts]) hvslash
      rw [heq]
      have hw'slash : w' ≠ ['/'] := hvslash w' hw'
      rw [ih (some w') ([v] ++ v2 :: vs2) _ (by simp [hw'slash]) hgs2]
      by_cases ha : alts.isEmpty <;> simp [ha]

/-- C3: slash alternation is resolved after parenthetical resolution, on
each intermediate phrase: a word list made of maximal runs
`w1 / w2 / … / wk` (rendered with `/` separator words) is scanned back
into exactly those runs as alternation segments, with the `/` separators
not emitted and lone words as single-candidate segments; the combined
parenthetical + slash example expands as claimed. -/
theorem C3_slash_alternation :
    (∀ gs : List (List (List Char)),
      (∀ g ∈ gs, g ≠ [] ∧ ∀ w ∈ g, w ≠ ['/']) →
      slashSegments (renderGroups gs) = gs) ∧
    generate_combinations "(avión de) caza / combate furtivo" =
      ["avión de caza furtivo", "avión de combate furtivo",
        "caza furtivo", "combate furtivo"] := by
  refine ⟨?_, by decide⟩
  intro gs hgs
  unfold slashSegments
  rw [slashSegs_render gs none [] [] (by simp) hgs]
  simp

/-- Witness for C3 at the groups of `caza` and `luz / fuego`. -/
theorem C3_slash_alternation_witness :
    slashSegments (renderGroups [["caza".toList], ["luz".toList, "fuego".toList]]) =
      [["caza".toList], ["luz".toList, "fuego".toList]] :=
  C3_slash_alternation.1 [["caza".toList], ["luz".toList, "fuego".toList]] (by decide)

theorem mem_dedupF : ∀ {l : List (List Char)} {x : List Char}, x ∈ dedupF l → x ∈ l := by
  intro l
  induction l with
  | nil => intro x h; simp [dedupF] at h
  | cons y ys ih =>
    intro x h
    rw [dedupF] at h
    rcases List.mem_cons.1 h with rfl | h2
    · simp
    · exact List.mem_cons_of_mem y (ih (List.mem_of_mem_filter h2))

theorem joinSpace_nil : joinSpace [] = [] := rfl

theorem joinSpace_one (w : List Char) : joinSpace [w] = w := by
  simp [joinSpace, List.intercalate]

theorem joinSpace_cons2 (w w2 : List Char) (ws : List (List Char)) :
    joinSpace (w :: w2 :: ws) = w ++ ' ' :: joinSpace (w2 :: ws) := by
  simp [joinSpace, List.intercalate, List.intersperse]

theorem mem_joinSpace :
    ∀ ws : List (List Char), ∀ c ∈ joinSpace ws, c = ' ' ∨ ∃ w ∈ ws, c ∈ w := by
  intro ws
  induction ws with
  | nil => intro c hc; simp [joinSpace_nil] at hc
  | cons w ws2 ih =>
    intro c hc
    cases ws2 with
    | nil =>
      rw [joinSpace_one] at hc
      exact Or.inr ⟨w, by simp, hc⟩
    | cons w2 ws3 =>
      rw [joinSpace_cons2] at hc
      rcases List.mem_append.1 hc with hc | hc
      · exact Or.inr ⟨w, by simp, hc⟩
      · rcases List.mem_cons.1 hc with rfl | hc
        · exact Or.inl rfl
        · rcases ih c hc with hsp | ⟨w', hw', hcw⟩
          · exact Or.inl hsp
          · exact Or.inr ⟨w', by simp [hw'], hcw⟩

theorem mem_joinSpace_of_mem {ws : List (List Char)} {w : List Char} {c : Char}
    (hw : w ∈ ws) (hc : c ∈ w) : c ∈ joinSpace ws := by
  induction ws with
  | nil => simp at hw
  | cons v ws2 ih =>
    cases ws2 with
    | nil =>
      rw [joinSpace_one]
      rcases List.mem_cons.1 hw with rfl | h2
      · exact hc
      · simp at h2
    | cons w2 ws3 =>
      rw [joinSpace_cons2]
      rcases List.mem_cons.1 hw with rfl | h2
      · exact List.mem_append_left _ hc
      · exact List.mem_append_right _ (List.mem_cons_of_mem _ (ih h2))

theorem pyStrip_subset {l : List Char} {c : Char} (h : c ∈ pyStrip l) : c ∈ l := by
  unfold pyStrip at h
  rw [List.mem_reverse] at h
  have h2 := (List.dropWhile_sublist _).mem h
  rw [List.mem_reverse] at h2
  exact (List.dropWhile_sublist _).mem h2

theorem mem_pyStrip_of_not_space {l : List Char} {c : Char}
    (hc : c ∈ l) (hns : pyIsSpace c = false) : c ∈ pyStrip l := by
  have step : ∀ m : List Char, c ∈ m → c ∈ m.dropWhile pyIsSpace := by
    intro m hm
    have hsplit : m.takeWhile pyIsSpace ++ m.dropWhile pyIsSpace = m :=
      List.takeWhile_append_dropWhile pyIsSpace m
    rw [← hsplit] at hm
    rcases List.mem_append.1 hm with hmem | hmem
    · exact absurd (List.mem_takeWhile_imp hmem) (by simp [hns])
    · exact hmem
  unfold pyStrip
  rw [List.mem_reverse]
  apply step
  rw [List.mem_reverse]
  exact step l hc

theorem wsSplitAux_mem :
    ∀ rest cur : List Char, ∀ w ∈ wsSplitAux rest cur, ∀ c ∈ w, c ∈ rest ∨ c ∈ cur := by
  intro rest
  induction rest with
  | nil =>
    intro cur w hw c hc
    rw [wsSplitAux] at hw
    by_cases hcur : cur.isEmpty
    · rw [if_pos hcur] at hw; simp at hw
    · rw [if_neg hcur] at hw
      simp only [List.mem_singleton] at hw
      subst hw
      exact Or.inr (List.mem_reverse.1 hc)
  | cons ch rest2 ih =>
    intro cur w hw c hc
    rw [wsSplitAux] at hw
    by_cases hsp : pyIsSpace ch
    · rw [if_pos hsp] at hw
      rcases List.mem_append.1 hw with hw | hw
      · by_cases hcur : cur.isEmpty
        · rw [if_pos hcur] at hw; simp at hw
        · rw [if_neg hcur] at hw
          simp only [List.mem_singleton] at hw
          subst hw
          exact Or.inr (List.mem_reverse.1 hc)
      · rcases ih [] w hw c hc with h2 | h2
        · exact Or.inl (List.mem_cons_of_mem _ h2)
        · simp at h2
    · rw [if_neg hsp] at hw
      rcases ih (ch :: cur) w hw c hc with h2 | h2
      · exact Or.inl (List.mem_cons_of_mem _ h2)
      · rcases List.mem_cons.1 h2 with rfl | h2
        · exact Or.inl (by simp)
        · exact Or.inr h2

theorem wsSplit_mem {l : List Char} {w : List Char} {c : Char}
    (hw : w ∈ wsSplit l) (hc : c ∈ w) : c ∈ l := by
  rcases wsSplitAux_mem l [] w hw c hc with h | h
  · exact h
  · simp at h

theorem wsSplitAux_words :
    ∀ rest cur : List Char, (∀ c ∈ cur, pyIsSpace c = false) →
      ∀ w ∈ wsSplitAux rest cur, w ≠ [] ∧ ∀ c ∈ w, pyIsSpace c = false := by
  intro rest
  induction rest with
  | nil =>
    intro cur hcur w hw
    rw [wsSplitAux] at hw
    by_cases hc : cur.isEmpty
    · rw [if_pos hc] at hw; simp at hw
    · rw [if_neg hc] at hw
      simp only [List.mem_singleton] at hw
      subst hw
      refine ⟨by simpa [List.isEmpty_iff] using hc, ?_⟩
      intro c hcw
      exact hcur c (List.mem_reverse.1 hcw)
  | cons ch rest2 ih =>
    intro cur hcur w hw
    rw [wsSplitAux] at hw
    by_cases hsp : pyIsSpace ch
    · rw [if_pos hsp] at hw
      rcases List.mem_append.1 hw with hw | hw
      · by_cases hc : cur.isEmpty
        · rw [if_pos hc] at hw; simp at hw
        · rw [if_neg hc] at hw
          simp only [List.mem_singleton] at hw
          subst hw
          refine ⟨by simpa [List.isEmpty_iff] using hc, ?_⟩
          intro c hcw
          exact hcur c (List.mem_reverse.1 hcw)
      · exact ih [] (by simp) w hw
    · rw [if_neg hsp] at hw
      refine ih (ch :: cur) ?_ w hw
      intro c hcw
      rcases List.mem_cons.1 hcw with rfl | hcw
      · exact Bool.eq_false_iff.2 hsp
      · exact hcur c hcw

theorem wsSplit_words {l : List Char} {w : List Char} (hw : w ∈ wsSplit l) :
    w ≠ [] ∧ ∀ c ∈ w, pyIsSpace c = false :=
  wsSplitAux_words l [] (by simp) w hw

theorem wsSplitAux_ne_nil :
    ∀ rest cur : List Char,
      (∃ c ∈ rest, pyIsSpace c = false) ∨ ¬cur.isEmpty →
      wsSplitAux rest cur ≠ [] := by
  intro rest
  induction rest with
  | nil =>
    intro cur h
    rcases h with ⟨c, hc, _⟩ | h
    · simp at hc
    · rw [wsSplitAux, if_neg h]
      simp
  | cons ch rest2 ih =>
    intro cur h
    rw [wsSplitAux]
    by_cases hsp : pyIsSpace ch
    · rw [if_pos hsp]
      by_cases hc : cur.isEmpty
      · rw [if_pos hc]
        simp only [List.nil_append]
        apply ih
        rcases h with ⟨c, hcm, hcn⟩ | h
        · rcases List.mem_cons.1 hcm with rfl | hcm
          · rw [hsp] at hcn; exact absurd hcn (by simp)
          · exact Or.inl ⟨c, hcm, hcn⟩
        · exact absurd hc h
      · rw [if_neg hc]
        simp
    · rw [if_neg hsp]
      apply ih
      right
      simp

theorem wsSplit_ne_nil {l : List Char} {c : Char}
    (hc : c ∈ l) (hns : pyIsSpace c = false) : wsSplit l ≠ [] :=
  wsSplitAux_ne_nil l [] (Or.inl ⟨c, hc, hns⟩)

theorem tokenizeAux_mem :
    ∀ rest cur : List Char, ∀ level : Int, ∀ tok ∈ tokenizeAux rest cur level,
      ∀ c ∈ tok, c ∈ rest ∨ c ∈ cur := by
  intro rest
  induction rest with
  | nil =>
    intro cur level tok htok c hc
    rw [tokenizeAux] at htok
    by_cases hcur : cur.isEmpty
    · rw [if_pos hcur] at htok; simp at htok
    · rw [if_neg hcur] at htok
      simp only [List.mem_singleton] at htok
      subst htok
      exact Or.inr (List.mem_reverse.1 hc)
  | cons ch rest2 ih =>
    intro cur level tok htok c hc
    rw [tokenizeAux] at htok
    by_cases h1 : ch = '('
    · rw [if_pos h1] at htok
      rcases ih (ch :: cur) (level + 1) tok htok c hc with h2 | h2
      · exact Or.inl (List.mem_cons_of_mem _ h2)
      · rcases List.mem_cons.1 h2 with rfl | h2
        · exact Or.inl (by simp)
        · exact Or.inr h2
    · rw [if_neg h1] at htok
      by_cases h2 : ch = ')'
      · rw [if_pos h2] at htok
        rcases ih (ch :: cur) (level - 1) tok htok c hc with h3 | h3
        · exact Or.inl (List.mem_cons_of_mem _ h3)
        · rcases List.mem_cons.1 h3 with rfl | h3
          · exact Or.inl (by simp)
          · exact Or.inr h3
      · rw [if_neg h2] at htok
        by_cases h3 : pyIsSpace ch = true ∧ level = 0
        · rw [if_pos h3] at htok
          rcases List.mem_append.1 htok with htok | htok
          · by_cases hcur : cur.isEmpty
            · rw [if_pos hcur] at htok; simp at htok
            · rw [if_neg hcur] at htok
              simp only [List.mem_singleton] at htok
              subst htok
              exact Or.inr (List.mem_reverse.1 hc)
          · rcases ih [] level tok htok c hc with h4 | h4
            · exact Or.inl (List.mem_cons_of_mem _ h4)
            · simp at h4
        · rw [if_neg h3] at htok
          rcases ih (ch :: cur) level tok htok c hc with h4 | h4
          · exact Or.inl (List.mem_cons_of_mem _ h4)
          · rcases List.mem_cons.1 h4 with rfl | h4
            · exact Or.inl (by simp)
            · exact Or.inr h4

theorem tokenize_mem {p : List Char} {tok : List Char} {c : Char}
    (htok : tok ∈ tokenize p) (hc : c ∈ tok) : c ∈ p := by
  rcases tokenizeAux_mem p [] 0 tok htok c hc with h | h
  · exact h
  · simp at h

theorem mem_listProd :
    ∀ segs : List (List (List Char)), ∀ combo ∈ listProd segs,
      ∀ x ∈ combo, ∃ seg ∈ segs, x ∈ seg := by
  intro segs
  induction segs with
  | nil =>
    intro combo hcombo x hx
    simp [listProd] at hcombo
    subst hcombo
    simp at hx
  | cons seg rest ih =>
    intro combo hcombo x hx
    rw [listProd] at hcombo
    obtain ⟨y, hy, hcombo⟩ := List.mem_flatMap.1 hcombo
    obtain ⟨combo2, hcombo2, rfl⟩ := List.mem_map.1 hcombo
    rcases List.mem_cons.1 hx with rfl | hx
    · exact ⟨seg, by simp, hy⟩
    · obtain ⟨seg2, hseg2, hxs⟩ := ih combo2 hcombo2 x hx
      exact ⟨seg2, by simp [hseg2], hxs⟩

theorem listProd_length :
    ∀ segs : List (List (List Char)), ∀ combo ∈ listProd segs,
      combo.length = segs.length := by
  intro segs
  induction segs with
  | nil =>
    intro combo hcombo
    simp [listProd] at hcombo
    simp [hcombo]
  | cons seg rest ih =>
    intro combo hcombo
    rw [listProd] at hcombo
    obtain ⟨y, _, hcombo⟩ := List.mem_flatMap.1 hcombo
    obtain ⟨combo2, hcombo2, rfl⟩ := List.mem_map.1 hcombo
    simp [ih combo2 hcombo2]

theorem papGo_chars :
    ∀ fuel : Nat, ∀ t r : List Char, r ∈ papGo fuel t → ∀ c ∈ r, c ∈ t := by
  intro fuel
  induction fuel with
  | zero =>
    intro t r hr c hc
    simp only [papGo, List.mem_singleton] at hr
    subst hr
    exact hc
  | succ f ih =>
    intro t r hr c hc
    cases hsp : splitFirstGroup t with
    | none =>
      simp only [papGo, hsp, List.mem_singleton] at hr
      subst hr
      exact hc
    | some pr =>
      obtain ⟨pfx, ctt, sfx⟩ := pr
      simp only [papGo, hsp] at hr
      obtain ⟨hdec, -, -⟩ := splitFirstGroup_decomp hsp
      have hkeep : ∀ d : Char, d ∈ pfx ++ ctt ++ sfx → d ∈ t := by
        intro d hd
        rcases hdec with rfl | rfl <;>
          · simp only [List.mem_append, List.mem_cons] at hd ⊢
            tauto
      have hdrop : ∀ d : Char, d ∈ pfx ++ sfx → d ∈ t := by
        intro d hd
        rcases hdec with rfl | rfl <;>
          · simp only [List.mem_append, List.mem_cons] at hd ⊢
            tauto
      by_cases h1 : pfx ++ sfx ≠ [] ∧ pfx ++ sfx ≠ t
      · rw [if_pos h1] at hr
        rcases List.mem_append.1 (mem_dedupF hr) with hr2 | hr2
        · exact hkeep c (ih _ r hr2 c hc)
        · exact hdrop c (ih _ r hr2 c hc)
      · rw [if_neg h1] at hr
        by_cases h2 : pfx ++ sfx ≠ []
        · rw [if_pos h2] at hr
          rcases List.mem_append.1 (mem_dedupF hr) with hr2 | hr2
          · exact hkeep c (ih _ r hr2 c hc)
          · simp only [List.mem_singleton] at hr2
            subst hr2
            exact hdrop c hc
        · rw [if_neg h2] at hr
          exact hkeep c (ih _ r (mem_dedupF hr) c hc)

theorem pap_chars {t r : List Char} (hr : r ∈ process_attached_parenthetical t) :
    ∀ c ∈ r, c ∈ t :=
  papGo_chars (t.length + 1) t r hr

theorem psg_chars :
    ∀ grp : List (List Char), ∀ cand ∈ process_standalone_group grp, ∀ c ∈ cand,
      c = ' ' ∨ ∃ t ∈ grp, c ∈ t := by
  intro grp cand hcand c hc
  unfold process_standalone_group at hcand
  by_cases hg : grp.isEmpty
  · rw [if_pos hg] at hcand
    simp only [List.mem_singleton] at hcand
    subst hcand
    simp at hc
  · rw [if_neg hg] at hcand
    dsimp only at hcand
    have hcand2 := List.mem_of_mem_filter hcand
    obtain ⟨i, _, rfl⟩ := List.mem_map.1 hcand2
    have hc2 := pyStrip_subset hc
    rcases mem_joinSpace _ c hc2 with rfl | ⟨w, hw, hcw⟩
    · exact Or.inl rfl
    · have hw2 : w ∈ grp.map (fun t => (t.drop 1).dropLast) := List.mem_of_mem_drop hw
      obtain ⟨t, ht, rfl⟩ := List.mem_map.1 hw2
      refine Or.inr ⟨t, ht, ?_⟩
      have hmem1 : c ∈ t.drop 1 := (List.dropLast_sublist _).mem hcw
      exact (List.drop_sublist 1 t).mem hmem1

theorem flushSeg_chars {grp : List (List Char)} {seg : List (List Char)}
    {cand : List Char} {c : Char}
    (hseg : seg ∈ (if grp.isEmpty then ([] : List (List (List Char)))
      else [process_standalone_group grp.reverse]))
    (hcand : cand ∈ seg) (hc : c ∈ cand) : c = ' ' ∨ ∃ t ∈ grp, c ∈ t := by
  by_cases hg : grp.isEmpty
  · rw [if_pos hg] at hseg; simp at hseg
  · rw [if_neg hg] at hseg
    simp only [List.mem_singleton] at hseg
    subst hseg
    rcases psg_chars _ cand hcand c hc with h | ⟨t, ht, hct⟩
    · exact Or.inl h
    · exact Or.inr ⟨t, List.mem_reverse.1 ht, hct⟩

theorem bsAux_chars :
    ∀ toks grp : List (List Char), ∀ seg ∈ bsAux grp toks, ∀ cand ∈ seg, ∀ c ∈ cand,
      c = ' ' ∨ (∃ t ∈ toks, c ∈ t) ∨ (∃ t ∈ grp, c ∈ t) := by
  intro toks
  induction toks with
  | nil =>
    intro grp seg hseg cand hcand c hc
    rw [bsAux_nil] at hseg
    rcases flushSeg_chars hseg hcand hc with h | h
    · exact Or.inl h
    · exact Or.inr (Or.inr h)
  | cons tk ts ih =>
    intro grp seg hseg cand hcand c hc
    rw [bsAux_cons] at hseg
    by_cases hatt : is_attached_parenthetical tk = true
    · rw [if_pos hatt] at hseg
      rcases List.mem_append.1 hseg with hseg | hseg
      · rcases flushSeg_chars hseg hcand hc with h | h
        · exact Or.inl h
        · exact Or.inr (Or.inr h)
      · rcases List.mem_cons.1 hseg with rfl | hseg
        · exact Or.inr (Or.inl ⟨tk, by simp, pap_chars hcand c hc⟩)
        · rcases ih [] seg hseg cand hcand c hc with h | h | h
          · exact Or.inl h
          · obtain ⟨t, ht, hct⟩ := h
            exact Or.inr (Or.inl ⟨t, by simp [ht], hct⟩)
          · simp at h
    · rw [if_neg hatt] at hseg
      by_cases hpar : is_parenthetical tk = true
      · rw [if_pos hpar] at hseg
        rcases ih (tk :: grp) seg hseg cand hcand c hc with h | h | h
        · exact Or.inl h
        · obtain ⟨t, ht, hct⟩ := h
          exact Or.inr (Or.inl ⟨t, by simp [ht], hct⟩)
        · obtain ⟨t, ht, hct⟩ := h
          rcases List.mem_cons.1 ht with rfl | ht
          · exact Or.inr (Or.inl ⟨t, by simp, hct⟩)
          · exact Or.inr (Or.inr ⟨t, ht, hct⟩)
      · rw [if_neg hpar] at hseg
        rcases List.mem_append.1 hseg with hseg | hseg
        · rcases flushSeg_chars hseg hcand hc with h | h
          · exact Or.inl h
          · exact Or.inr (Or.inr h)
        · rcases List.mem_cons.1 hseg with rfl | hseg
          · rw [List.mem_singleton] at hcand
            exact Or.inr (Or.inl ⟨tk, by simp, hcand ▸ hc⟩)
          · rcases ih [] seg hseg cand hcand c hc with h | h | h
            · exact Or.inl h
            · obtain ⟨t, ht, hct⟩ := h
              exact Or.inr (Or.inl ⟨t, by simp [ht], hct⟩)
            · simp at h

theorem slashSegs_mem :
    ∀ n : Nat, ∀ ws : List (List Char), ws.length ≤ n →
      ∀ prev : Option (List Char), ∀ alts : List (List Char),
      ∀ segs0 : List (List (List Char)), ∀ seg ∈ slashSegs prev ws alts segs0,
      ∀ w ∈ seg, (∃ s ∈ segs0, w ∈ s) ∨ w ∈ alts ∨ w ∈ ws := by
  intro n
  induction n with
  | zero =>
    intro ws hlen prev alts segs0 seg hseg w hw
    have hws : ws = [] := List.length_eq_zero.1 (Nat.le_zero.1 hlen)
    subst hws
    rw [slashSegs_nil] at hseg
    by_cases ha : alts.isEmpty
    · rw [if_pos ha] at hseg
      exact Or.inl ⟨seg, hseg, hw⟩
    · rw [if_neg ha] at hseg
      rcases List.mem_append.1 hseg with hseg | hseg
      · exact Or.inl ⟨seg, hseg, hw⟩
      · simp only [List.mem_singleton] at hseg
        subst hseg
        exact Or.inr (Or.inl hw)
  | succ m ih =>
    intro ws hlen prev alts segs0 seg hseg w hw
    match ws, hlen with
    | [], hlen =>
      rw [slashSegs_nil] at hseg
      by_cases ha : alts.isEmpty
      · rw [if_pos ha] at hseg
        exact Or.inl ⟨seg, hseg, hw⟩
      · rw [if_neg ha] at hseg
        rcases List.mem_append.1 hseg with hseg | hseg
        · exact Or.inl ⟨seg, hseg, hw⟩
        · simp only [List.mem_singleton] at hseg
          subst hseg
          exact Or.inr (Or.inl hw)
    | [w0], hlen =>
      rw [slashSegs_one] at hseg
      by_cases hp : prev = some ['/']
      · rw [if_pos hp] at hseg
        rcases List.mem_append.1 hseg with hseg | hseg
        · exact Or.inl ⟨seg, hseg, hw⟩
        · simp only [List.mem_singleton] at hseg
          subst hseg
          rcases List.mem_append.1 hw with hw | hw
          · exact Or.inr (Or.inl hw)
          · exact Or.inr (Or.inr hw)
      · rw [if_neg hp] at hseg
        rcases List.mem_append.1 hseg with hseg | hseg
        · by_cases ha : alts.isEmpty
          · rw [if_pos ha] at hseg
            exact Or.inl ⟨seg, hseg, hw⟩
          · rw [if_neg ha] at hseg
            rcases List.mem_append.1 hseg with hseg | hseg
            · exact Or.inl ⟨seg, hseg, hw⟩
            · simp only [List.mem_singleton] at hseg
              subst hseg
              exact Or.inr (Or.inl hw)
        · simp only [List.mem_singleton] at hseg
          subst hseg
          simp only [List.mem_singleton] at hw
          subst hw
          exact Or.inr (Or.inr (by simp))
    | w0 :: r1 :: rest2, hlen =>
      have hlen2 : (r1 :: rest2).length ≤ m := by
        simp only [List.length_cons] at hlen ⊢
        omega
      have hlen3 : rest2.length ≤ m := by
        simp only [List.length_cons] at hlen ⊢
        omega
      rw [slashSegs_cons2] at hseg
      by_cases h1 : w0 = ['/']
      · rw [if_pos h1] at hseg
        rcases ih (r1 :: rest2) hlen2 _ _ _ seg hseg w hw with h | h | h
        · exact Or.inl h
        · exact Or.inr (Or.inl h)
        · exact Or.inr (Or.inr (List.mem_cons_of_mem _ h))
      · rw [if_neg h1] at hseg
        by_cases hp : prev = some ['/']
        · rw [if_pos hp] at hseg
          rcases ih (r1 :: rest2) hlen2 _ _ _ seg hseg w hw with h | h | h
          · exact Or.inl h
          · rcases List.mem_append.1 h with h | h
            · exact Or.inr (Or.inl h)
            · simp only [List.mem_singleton] at h
              subst h
              exact Or.inr (Or.inr (by simp))
          · exact Or.inr (Or.inr (List.mem_cons_of_mem _ h))
        · rw [if_neg hp] at hseg
          have hflush : ∀ s ∈ (if alts.isEmpty then segs0 else segs0 ++ [alts]),
              ∀ x ∈ s, (∃ s2 ∈ segs0, x ∈ s2) ∨ x ∈ alts := by
            intro s hs x hx
            by_cases ha : alts.isEmpty
            · rw [if_pos ha] at hs
              exact Or.inl ⟨s, hs, hx⟩
            · rw [if_neg ha] at hs
              rcases List.mem_append.1 hs with hs | hs
              · exact Or.inl ⟨s, hs, hx⟩
              · simp only [List.mem_singleton] at hs
                subst hs
                exact Or.inr hx
          by_cases h2 : r1 = ['/']
          · rw [if_pos h2] at hseg
            rcases ih rest2 hlen3 _ _ _ seg hseg w hw with h | h | h
            · obtain ⟨s, hs, hws2⟩ := h
              rcases hflush s hs w hws2 with h | h
              · exact Or.inl h
              · exact Or.inr (Or.inl h)
            · simp only [List.mem_singleton] at h
              subst h
              exact Or.inr (Or.inr (by simp))
            · exact Or.inr (Or.inr (by simp [h]))
          · rw [if_neg h2] at hseg
            rcases ih (r1 :: rest2) hlen2 _ _ _ seg hseg w hw with h | h | h
            · obtain ⟨s, hs, hws2⟩ := h
              rcases List.mem_append.1 hs with hs | hs
              · rcases hflush s hs w hws2 with h | h
                · exact Or.inl h
                · exact Or.inr (Or.inl h)
              · simp only [List.mem_singleton] at hs
                subst hs
                simp only [List.mem_singleton] at hws2
                subst hws2
                exact Or.inr (Or.inr (by simp))
            · simp at h
            · exact Or.inr (Or.inr (List.mem_cons_of_mem _ h))

theorem slashSegs_ne_nil :
    ∀ n : Nat, ∀ ws : List (List Char), ws.length ≤ n →
      ∀ prev : Option (List Char), ∀ alts : List (List Char),
      ∀ segs0 : List (List (List Char)),
      segs0 ≠ [] ∨ alts ≠ [] ∨ ws ≠ [] →
      slashSegs prev ws alts segs0 ≠ [] := by
  intro n
  induction n with
  | zero =>
    intro ws hlen prev alts segs0 hne
    have hws : ws = [] := List.length_eq_zero.1 (Nat.le_zero.1 hlen)
    subst hws
    rw [slashSegs_nil]
    by_cases ha : alts.isEmpty
    · rw [if_pos ha]
      rcases hne with h | h | h
      · exact h
      · exact absurd (List.isEmpty_iff.1 ha) h
      · exact absurd rfl h
    · rw [if_neg ha]
      simp
  | succ m ih =>
    intro ws hlen prev alts segs0 hne
    match ws, hlen with
    | [], hlen =>
      rw [slashSegs_nil]
      by_cases ha : alts.isEmpty
      · rw [if_pos ha]
        rcases hne with h | h | h
        · exact h
        · exact absurd (List.isEmpty_iff.1 ha) h
        · exact absurd rfl h
      · rw [if_neg ha]
        simp
    | [w0], hlen =>
      rw [slashSegs_one]
      by_cases hp : prev = some ['/']
      · rw [if_pos hp]; simp
      · rw [if_neg hp]; simp
    | w0 :: r1 :: rest2, hlen =>
      have hlen2 : (r1 :: rest2).length ≤ m := by
        simp only [List.length_cons] at hlen ⊢
        omega
      have hlen3 : rest2.length ≤ m := by
        simp only [List.length_cons] at hlen ⊢
        omega
      rw [slashSegs_cons2]
      by_cases h1 : w0 = ['/']
      · rw [if_pos h1]
        exact ih _ hlen2 _ _ _ (Or.inr (Or.inr (by simp)))
      · rw [if_neg h1]
        by_cases hp : prev = some ['/']
        · rw [if_pos hp]
          exact ih _ hlen2 _ _ _ (Or.inr (Or.inr (by simp)))
        · rw [if_neg hp]
          by_cases h2 : r1 = ['/']
          · rw [if_pos h2]
            exact ih _ hlen3 _ _ _ (Or.inr (Or.inl (by simp)))
          · rw [if_neg h2]
            exact ih _ hlen2 _ _ _ (Or.inl (by simp))

/-- Every character of every final phrase comes from the input or is a
space introduced by joining. -/
theorem gcFinals_chars :
    ∀ s : List Char, ∀ p ∈ gcFinals s, ∀ c ∈ p, c ∈ s ∨ c = ' ' := by
  intro s p hp c hc
  unfold gcFinals at hp
  dsimp only at hp
  obtain ⟨im, him, hpfin⟩ := List.mem_flatMap.1 hp
  obtain ⟨im0, him0, rfl⟩ := List.mem_map.1 him
  have him0f := List.mem_of_mem_filter him0
  obtain ⟨combo, hcombo, rfl⟩ := List.mem_map.1 him0f
  have him_chars :
      ∀ d ∈ normalize_space (pyStrip (joinSpace combo)), d ∈ s ∨ d = ' ' := by
    intro d hd
    unfold normalize_space at hd
    rcases mem_joinSpace _ d hd with rfl | ⟨w, hw, hdw⟩
    · exact Or.inr rfl
    · have hd2 : d ∈ pyStrip (joinSpace combo) := wsSplit_mem hw hdw
      have hd3 := pyStrip_subset hd2
      rcases mem_joinSpace _ d hd3 with rfl | ⟨cand, hcand, hdc⟩
      · exact Or.inr rfl
      · obtain ⟨seg, hseg, hcandseg⟩ := mem_listProd _ combo hcombo cand hcand
        unfold buildSegments at hseg
        rcases bsAux_chars (tokenize s) [] seg hseg cand hcandseg d hdc with h | h | h
        · exact Or.inr h
        · obtain ⟨t, ht, hdt⟩ := h
          exact Or.inl (tokenize_mem ht hdt)
        · simp at h
  unfold finalsOfIntermediate at hpfin
  dsimp only at hpfin
  obtain ⟨combo2, hcombo2, rfl⟩ := List.mem_map.1 hpfin
  unfold normalize_space at hc
  rcases mem_joinSpace _ c hc with rfl | ⟨w, hw, hcw⟩
  · exact Or.inr rfl
  · have hc2 : c ∈ joinSpace combo2 := wsSplit_mem hw hcw
    rcases mem_joinSpace _ c hc2 with rfl | ⟨w2, hw2, hcw2⟩
    · exact Or.inr rfl
    · obtain ⟨seg2, hseg2, hw2seg⟩ := mem_listProd _ combo2 hcombo2 w2 hw2
      unfold slashSegments at hseg2
      rcases slashSegs_mem
          (wsSplit (pyStrip (normalize_space (pyStrip (joinSpace combo))))).length
          _ le_rfl none [] [] seg2 hseg2 w2 hw2seg with h | h | h
      · obtain ⟨s0, hs0, -⟩ := h
        simp at hs0
      · simp at h
      · have hc3 := wsSplit_mem h hcw2
        exact him_chars c (pyStrip_subset hc3)

/-- C6 counterexample: the fully resolved phrase `/` is an output of the
expander on the well-formed input `(a) / (b)` (both alternatives of the
slash run are optional parentheticals; dropping both leaves the bare
slash, which survives to the output), so an output phrase can contain a
`/` character. -/
theorem C6_counterexample :
    generate_combinations "(a) / (b)" = ["/", "a", "b"] ∧
    "/" ∈ generate_combinations "(a) / (b)" ∧
    '/' ∈ "/".toList := by
  refine ⟨by decide, by decide, by decide⟩

/-- C6 (amended): if the input contains no parenthesis and no slash
characters, then no output phrase contains them; in general stray or
fully-optional-flanked slashes and unparseable paren tokens pass through
to the output as literal characters. -/
theorem C6_no_special_chars_amended (s : String)
    (hs : ∀ c ∈ s.toList, c ≠ '(' ∧ c ≠ ')' ∧ c ≠ '/') :
    ∀ p ∈ generate_combinations s, ∀ c ∈ p.toList, c ≠ '(' ∧ c ≠ ')' ∧ c ≠ '/' := by
  intro p hp c hc
  unfold generate_combinations at hp
  by_cases hb : (pyStrip s.toList).isEmpty = true
  · rw [if_pos hb] at hp
    simp at hp
  · rw [if_neg hb] at hp
    obtain ⟨q, hq, rfl⟩ := List.mem_map.1 hp
    have hq2 : q ∈ gcFinals s.toList := mem_pySortedSet.1 hq
    have hc2 : c ∈ q := hc
    rcases gcFinals_chars s.toList q hq2 c hc2 with h | rfl
    · exact hs c h
    · exact ⟨by decide, by decide, by decide⟩

/-- Witness for the amended C6 at the input `hola x`, its output phrase
`hola x` and that phrase's first character. -/
theorem C6_no_special_chars_amended_witness :
    'h' ≠ '(' ∧ 'h' ≠ ')' ∧ 'h' ≠ '/' :=
  C6_no_special_chars_amended "hola x" (by decide) "hola x" (by decide) 'h'
    (by decide)

theorem wsSplitAux_cons (ch : Char) (rest cur : List Char) :
    wsSplitAux (ch :: rest) cur =
      if pyIsSpace ch then
        (if cur.isEmpty then [] else [cur.reverse]) ++ wsSplitAux rest []
      else wsSplitAux rest (ch :: cur) := rfl

theorem wsSplitAux_nil_eq (cur : List Char) :
    wsSplitAux [] cur = if cur.isEmpty then [] else [cur.reverse] := rfl

theorem wsSplitAux_append_word :
    ∀ w rest cur : List Char, (∀ c ∈ w, pyIsSpace c = false) →
      wsSplitAux (w ++ rest) cur = wsSplitAux rest (w.reverse ++ cur) := by
  intro w
  induction w with
  | nil => intro rest cur _; simp
  | cons c w2 ih =>
    intro rest cur hns
    rw [List.cons_append, wsSplitAux_cons, if_neg (by simp [hns c (by simp)]),
      ih rest (c :: cur) (fun d hd => hns d (by simp [hd]))]
    simp

theorem wsSplit_joinSpace :
    ∀ ws : List (List Char),
      (∀ w ∈ ws, w ≠ [] ∧ ∀ c ∈ w, pyIsSpace c = false) →
      wsSplit (joinSpace ws) = ws := by
  intro ws
  induction ws with
  | nil => intro _; rfl
  | cons w ws2 ih =>
    intro hws
    obtain ⟨hwne, hwns⟩ := hws w (by simp)
    cases ws2 with
    | nil =>
      rw [joinSpace_one]
      unfold wsSplit
      have hgen := wsSplitAux_append_word w [] [] hwns
      rw [List.append_nil] at hgen
      rw [hgen, wsSplitAux_nil_eq, if_neg (by simp [hwne])]
      simp
    | cons w2 ws3 =>
      rw [joinSpace_cons2]
      unfold wsSplit
      rw [wsSplitAux_append_word w (' ' :: joinSpace (w2 :: ws3)) [] hwns,
        wsSplitAux_cons, if_pos (by decide), if_neg (by simp [hwne])]
      have ih2 := ih (fun v hv => hws v (by simp [hv]))
      unfold wsSplit at ih2
      rw [ih2]
      simp

theorem joinSpace_ne_nil {ws : List (List Char)} (hne : ws ≠ [])
    (hgood : ∀ w ∈ ws, w ≠ []) : joinSpace ws ≠ [] := by
  cases ws with
  | nil => exact absurd rfl hne
  | cons w ws2 =>
    cases ws2 with
    | nil =>
      rw [joinSpace_one]
      exact hgood w (by simp)
    | cons w2 ws3 =>
      rw [joinSpace_cons2]
      have hw : w ≠ [] := hgood w (by simp)
      intro heq
      rcases List.append_eq_nil.1 heq with ⟨h1, h2⟩
      · exact absurd h1 hw

theorem dropWhile_eq_self_of_head {l : List Char}
    (h : ∀ c, l.head? = some c → pyIsSpace c = false) :
    l.dropWhile pyIsSpace = l := by
  cases l with
  | nil => rfl
  | cons c cs =>
    rw [List.dropWhile_cons, if_neg (by simp [h c rfl])]

theorem joinSpace_head_not_space {ws : List (List Char)}
    (hgood : ∀ w ∈ ws, w ≠ [] ∧ ∀ c ∈ w, pyIsSpace c = false) :
    ∀ c, (joinSpace ws).head? = some c → pyIsSpace c = false := by
  intro c hc
  cases ws with
  | nil => simp [joinSpace_nil] at hc
  | cons w ws2 =>
    obtain ⟨hwne, hwns⟩ := hgood w (by simp)
    obtain ⟨a, w2, rfl⟩ := List.exists_cons_of_ne_nil hwne
    cases ws2 with
    | nil =>
      rw [joinSpace_one] at hc
      simp only [List.head?_cons, Option.some.injEq] at hc
      rw [← hc]
      exact hwns a (by simp)
    | cons v vs =>
      rw [joinSpace_cons2, List.cons_append] at hc
      simp only [List.head?_cons, Option.some.injEq] at hc
      rw [← hc]
      exact hwns a (by simp)

theorem joinSpace_getLast_not_space :
    ∀ ws : List (List Char),
      (∀ w ∈ ws, w ≠ [] ∧ ∀ c ∈ w, pyIsSpace c = false) →
      ∀ c, (joinSpace ws).getLast? = some c → pyIsSpace c = false := by
  intro ws
  induction ws with
  | nil => intro _ c hc; simp [joinSpace_nil] at hc
  | cons w ws2 ih =>
    intro hgood c hc
    obtain ⟨hwne, hwns⟩ := hgood w (by simp)
    cases ws2 with
    | nil =>
      rw [joinSpace_one] at hc
      have hmem : c ∈ w := by
        obtain ⟨hne2, heq⟩ := List.mem_getLast?_eq_getLast (Option.mem_def.2 hc)
        rw [heq]
        exact List.getLast_mem hne2
      exact hwns c hmem
    | cons w2 ws3 =>
      rw [joinSpace_cons2] at hc
      have hjne : joinSpace (w2 :: ws3) ≠ [] :=
        joinSpace_ne_nil (by simp) (fun v hv => (hgood v (by simp [hv])).1)
      rw [List.getLast?_append_cons] at hc
      obtain ⟨j0, js, hj⟩ := List.exists_cons_of_ne_nil hjne
      rw [hj, List.getLast?_cons_cons] at hc
      have hc2 : (joinSpace (w2 :: ws3)).getLast? = some c := by
        rw [hj]
        exact hc
      exact ih (fun v hv => hgood v (by simp [hv])) c hc2

theorem pyStrip_joinSpace {ws : List (List Char)}
    (hgood : ∀ w ∈ ws, w ≠ [] ∧ ∀ c ∈ w, pyIsSpace c = false) :
    pyStrip (joinSpace ws) = joinSpace ws := by
  unfold pyStrip
  rw [dropWhile_eq_self_of_head (joinSpace_head_not_space hgood)]
  have hrev : ∀ c, (joinSpace ws).reverse.head? = some c → pyIsSpace c = false := by
    intro c hc
    rw [List.head?_reverse] at hc
    exact joinSpace_getLast_not_space ws hgood c hc
  rw [dropWhile_eq_self_of_head hrev, List.reverse_reverse]

theorem pyStrip_eq_nil_iff {l : List Char} :
    pyStrip l = [] ↔ ∀ c ∈ l, pyIsSpace c = true := by
  constructor
  · intro h c hc
    by_contra hns
    have hmem := mem_pyStrip_of_not_space hc (Bool.eq_false_iff.2 hns)
    rw [h] at hmem
    simp at hmem
  · intro h
    unfold pyStrip
    have h1 : l.dropWhile pyIsSpace = [] :=
      List.dropWhile_eq_nil_iff.2 (fun c hc => h c hc)
    rw [h1]
    rfl

theorem tokenizeAux_cons (ch : Char) (rest cur : List Char) (level : Int) :
    tokenizeAux (ch :: rest) cur level =
      if ch = '(' then tokenizeAux rest (ch :: cur) (level + 1)
      else if ch = ')' then tokenizeAux rest (ch :: cur) (level - 1)
      else if pyIsSpace ch ∧ level = 0 then
        (if cur.isEmpty then [] else [cur.reverse]) ++ tokenizeAux rest [] level
      else tokenizeAux rest (ch :: cur) level := rfl

theorem tokenizeAux_eq_wsSplitAux :
    ∀ rest cur : List Char, (∀ c ∈ rest, c ≠ '(' ∧ c ≠ ')') →
      tokenizeAux rest cur 0 = wsSplitAux rest cur := by
  intro rest
  induction rest with
  | nil => intro cur _; rfl
  | cons ch rest2 ih =>
    intro cur hpf
    obtain ⟨h1, h2⟩ := hpf ch (by simp)
    have hpf2 : ∀ c ∈ rest2, c ≠ '(' ∧ c ≠ ')' := fun c hc => hpf c (by simp [hc])
    rw [tokenizeAux_cons, if_neg h1, if_neg h2, wsSplitAux_cons]
    by_cases hsp : pyIsSpace ch = true
    · rw [if_pos ⟨hsp, rfl⟩, if_pos hsp, ih [] hpf2]
    · rw [if_neg (fun hand => hsp hand.1), if_neg hsp, ih (ch :: cur) hpf2]

theorem tokenize_eq_wsSplit {l : List Char}
    (h : ∀ c ∈ l, c ≠ '(' ∧ c ≠ ')') : tokenize l = wsSplit l :=
  tokenizeAux_eq_wsSplitAux l [] h

theorem no_paren_not_parenthetical {w : List Char} (h : '(' ∉ w) :
    is_parenthetical w = false := by
  cases w with
  | nil => rfl
  | cons c w2 =>
    have hc : c ≠ '(' := fun hcc => h (by simp [hcc])
    unfold is_parenthetical
    split
    · next rest heq =>
      exact absurd (List.cons.injEq _ _ _ _ ▸ heq).1 hc
    · rfl

theorem no_paren_not_attached {w : List Char} (h : '(' ∉ w) :
    is_attached_parenthetical w = false := by
  unfold is_attached_parenthetical
  have hcon : w.contains '(' = false := by
    cases hc : w.contains '(' with
    | false => rfl
    | true => exact absurd (List.mem_of_elem_eq_true hc) h
  rw [hcon]
  simp

theorem bsAux_plain :
    ∀ toks : List (List Char),
      (∀ t ∈ toks, is_attached_parenthetical t = false ∧ is_parenthetical t = false) →
      bsAux [] toks = toks.map (fun t => [t]) := by
  intro toks
  induction toks with
  | nil => intro _; rfl
  | cons t ts ih =>
    intro h
    obtain ⟨hatt, hpar⟩ := h t (by simp)
    rw [bsAux_cons]
    simp only [hatt, hpar, Bool.false_eq_true, if_false]
    rw [ih (fun x hx => h x (by simp [hx]))]
    simp

theorem listProd_singletons :
    ∀ toks : List (List Char), listProd (toks.map (fun t => [t])) = [toks] := by
  intro toks
  induction toks with
  | nil => rfl
  | cons t ts ih => simp [listProd, ih]

theorem renderGroups_singletons :
    ∀ ws : List (List Char), renderGroups (ws.map (fun w => [w])) = ws := by
  intro ws
  induction ws with
  | nil => rfl
  | cons w ws2 ih =>
    rw [List.map_cons, renderGroups_cons, renderGroup_one, ih, List.singleton_append]

theorem slashSegments_singletons {ws : List (List Char)}
    (hne : ∀ w ∈ ws, w ≠ ['/']) :
    slashSegments ws = ws.map (fun w => [w]) := by
  unfold slashSegments
  have hgroups : ∀ g ∈ ws.map (fun w => [w]), g ≠ [] ∧ ∀ w2 ∈ g, w2 ≠ ['/'] := by
    intro g hg
    obtain ⟨w, hw, rfl⟩ := List.mem_map.1 hg
    refine ⟨by simp, ?_⟩
    intro w2 hw2
    rw [List.mem_singleton] at hw2
    rw [hw2]
    exact hne w hw
  have hrender := slashSegs_render (ws.map (fun w => [w])) none [] [] (by simp) hgroups
  rw [renderGroups_singletons] at hrender
  simpa using hrender

theorem gcFinals_shape :
    ∀ s : List Char, ∀ p ∈ gcFinals s,
      ∃ ws : List (List Char), ws ≠ [] ∧
        (∀ w ∈ ws, w ≠ [] ∧ ∀ c ∈ w, pyIsSpace c = false) ∧
        p = joinSpace ws := by
  intro s p hp
  unfold gcFinals at hp
  dsimp only at hp
  obtain ⟨im, him, hpfin⟩ := List.mem_flatMap.1 hp
  obtain ⟨im0, him0, rfl⟩ := List.mem_map.1 him
  have hcond := (List.mem_filter.1 him0).2
  have hstrip : pyStrip im0 ≠ [] := by
    intro h
    rw [h] at hcond
    simp at hcond
  have hexists : ∃ c ∈ im0, pyIsSpace c = false := by
    by_contra hno
    push_neg at hno
    apply hstrip
    apply pyStrip_eq_nil_iff.2
    intro c hc
    cases hcb : pyIsSpace c with
    | true => rfl
    | false => exact absurd hcb (hno c hc)
  obtain ⟨c0, hc0, hc0ns⟩ := hexists
  have hws1ne : wsSplit im0 ≠ [] := wsSplit_ne_nil hc0 hc0ns
  obtain ⟨w1, ws1t, hws1⟩ := List.exists_cons_of_ne_nil hws1ne
  have hw1mem : w1 ∈ wsSplit im0 := by rw [hws1]; simp
  obtain ⟨hw1ne, hw1ns⟩ := wsSplit_words hw1mem
  obtain ⟨c1, w1t, rfl⟩ := List.exists_cons_of_ne_nil hw1ne
  have hw1mem2 : (c1 :: w1t) ∈ wsSplit im0 := hw1mem
  have hc1mem : c1 ∈ normalize_space im0 := by
    unfold normalize_space
    exact mem_joinSpace_of_mem hw1mem2 (by simp)
  have hc1ns : pyIsSpace c1 = false := hw1ns c1 (by simp)
  have hwordsne : wsSplit (pyStrip (normalize_space im0)) ≠ [] :=
    wsSplit_ne_nil (mem_pyStrip_of_not_space hc1mem hc1ns) hc1ns
  unfold finalsOfIntermediate at hpfin
  dsimp only at hpfin
  obtain ⟨combo2, hcombo2, rfl⟩ := List.mem_map.1 hpfin
  have hsegs2ne : slashSegments (wsSplit (pyStrip (normalize_space im0))) ≠ [] := by
    unfold slashSegments
    exact slashSegs_ne_nil _ _ le_rfl none [] [] (Or.inr (Or.inr hwordsne))
  have hc2len := listProd_length _ combo2 hcombo2
  have hcombo2ne : combo2 ≠ [] := by
    intro h
    subst h
    simp only [List.length_nil] at hc2len
    exact hsegs2ne (List.length_eq_zero.1 hc2len.symm)
  obtain ⟨w0, combo2t, rfl⟩ := List.exists_cons_of_ne_nil hcombo2ne
  obtain ⟨seg0, hseg0, hw0seg⟩ := mem_listProd _ _ hcombo2 w0 (by simp)
  have hw0words : w0 ∈ wsSplit (pyStrip (normalize_space im0)) := by
    unfold slashSegments at hseg0
    rcases slashSegs_mem _ _ le_rfl none [] [] seg0 hseg0 w0 hw0seg with h | h | h
    · obtain ⟨s0, hs0, -⟩ := h
      simp at hs0
    · simp at h
    · exact h
  obtain ⟨hw0ne, hw0ns⟩ := wsSplit_words hw0words
  obtain ⟨d0, w0t, rfl⟩ := List.exists_cons_of_ne_nil hw0ne
  have hw0in : (d0 :: w0t) ∈ ((d0 :: w0t) :: combo2t) := by simp
  have hd0in : d0 ∈ (d0 :: w0t) := by simp
  have hd0 : d0 ∈ joinSpace ((d0 :: w0t) :: combo2t) := mem_joinSpace_of_mem hw0in hd0in
  refine ⟨wsSplit (joinSpace ((d0 :: w0t) :: combo2t)), ?_,
    fun w hw => wsSplit_words hw, ?_⟩
  · exact wsSplit_ne_nil hd0 (hw0ns d0 (by simp))
  · rfl

/-- C10 counterexample: the output `a /` of `expand("a b / /")` (the
trailing stray slash joins the alternation run as a literal word) does not
re-expand to itself: re-expanding drops the slash and yields `["a"]`. -/
theorem C10_counterexample :
    "a /" ∈ generate_combinations "a b / /" ∧
    generate_combinations "a b / /" = ["a /", "a b"] ∧
    generate_combinations "a /" = ["a"] ∧
    generate_combinations "a /" ≠ ["a /"] :=
  ⟨by decide, by decide, by decide, by decide⟩

/-- C10 (amended): every produced phrase is non-empty, and every produced
phrase free of parenthesis and slash characters re-expands to exactly
itself; produced phrases that carry leftover paren or slash literals may
re-expand differently. -/
theorem C10_idempotent_amended (s p : String)
    (hp : p ∈ generate_combinations s) :
    p ≠ "" ∧
    ((∀ c ∈ p.toList, c ≠ '(' ∧ c ≠ ')' ∧ c ≠ '/') →
      generate_combinations p = [p]) := by
  unfold generate_combinations at hp
  by_cases hb : (pyStrip s.toList).isEmpty = true
  · rw [if_pos hb] at hp
    simp at hp
  · rw [if_neg hb] at hp
    obtain ⟨q, hq, rfl⟩ := List.mem_map.1 hp
    have hq2 : q ∈ gcFinals s.toList := mem_pySortedSet.1 hq
    obtain ⟨ws, hwsne, hwsgood, rfl⟩ := gcFinals_shape s.toList q hq2
    have hqne : joinSpace ws ≠ [] :=
      joinSpace_ne_nil hwsne (fun w hw => (hwsgood w hw).1)
    constructor
    · intro heq
      exact hqne (congrArg String.data heq)
    · intro hfree
      have hfree2 : ∀ c ∈ joinSpace ws, c ≠ '(' ∧ c ≠ ')' ∧ c ≠ '/' := hfree
      have hstripq : pyStrip (joinSpace ws) = joinSpace ws := pyStrip_joinSpace hwsgood
      have htok : tokenize (joinSpace ws) = ws := by
        rw [tokenize_eq_wsSplit (fun c hc => ⟨(hfree2 c hc).1, (hfree2 c hc).2.1⟩),
          wsSplit_joinSpace ws hwsgood]
      have hflags : ∀ t ∈ ws,
          is_attached_parenthetical t = false ∧ is_parenthetical t = false := by
        intro t ht
        have hnop : '(' ∉ t := by
          intro hmem
          exact (hfree2 '(' (mem_joinSpace_of_mem ht hmem)).1 rfl
        exact ⟨no_paren_not_attached hnop, no_paren_not_parenthetical hnop⟩
      have hnoslash : ∀ w ∈ ws, w ≠ ['/'] := by
        intro w hw heq
        subst heq
        exact (hfree2 '/' (mem_joinSpace_of_mem hw (by simp))).2.2 rfl
      have hnorm : normalize_space (joinSpace ws) = joinSpace ws := by
        unfold normalize_space
        rw [wsSplit_joinSpace ws hwsgood]
      have hfin : finalsOfIntermediate (joinSpace ws) = [joinSpace ws] := by
        unfold finalsOfIntermediate
        dsimp only
        rw [hstripq, wsSplit_joinSpace ws hwsgood, slashSegments_singletons hnoslash,
          listProd_singletons]
        simp [hnorm]
      have hgcf : gcFinals (joinSpace ws) = [joinSpace ws] := by
        unfold gcFinals
        dsimp only
        rw [htok]
        unfold buildSegments
        rw [bsAux_plain ws hflags, listProd_singletons]
        simp only [List.map_cons, List.map_nil, hstripq]
        rw [List.filter_cons_of_pos (by simpa [List.isEmpty_iff, hstripq] using hqne)]
        simp [hnorm, hfin]
      unfold generate_combinations
      have htl : (String.mk (joinSpace ws)).toList = joinSpace ws := rfl
      simp only [htl]
      rw [if_neg (by rw [hstripq]; simpa [List.isEmpty_iff] using hqne), hgcf]
      unfold pySortedSet
      rw [show (([joinSpace ws].insertionSort (fun a b => charListLe a b = true))) =
        [joinSpace ws] from rfl]
      rw [List.dedup_cons_of_not_mem (by simp), List.dedup_nil]
      rfl

/-- Witness for the amended C10 at the output `tenis` of
`(zapato de) tenis`. -/
theorem C10_idempotent_amended_witness :
    ("tenis" : String) ≠ "" ∧ generate_combinations "tenis" = ["tenis"] :=
  ⟨(C10_idempotent_amended "(zapato de) tenis" "tenis" (by decide)).1,
    (C10_idempotent_amended "(zapato de) tenis" "tenis" (by decide)).2 (by decide)⟩

/-! ### C9: remove_unmatched_brackets -/

theorem rubScan_nil (st : List (Char × Nat)) (u : List Nat) :
    rubScan [] st u = (st, u) := rfl

theorem rubScan_cons_open {ch : Char} (h : isOpening ch = true)
    (i : Nat) (rest : List (Nat × Char)) (st : List (Char × Nat))
    (u : List Nat) :
    rubScan ((i, ch) :: rest) st u = rubScan rest ((ch, i) :: st) u := by
  simp [rubScan, h]

theorem rubScan_cons_close_nil {ch : Char} (h1 : isOpening ch = false)
    (h2 : isClosing ch = true) (i : Nat) (rest : List (Nat × Char))
    (u : List Nat) :
    rubScan ((i, ch) :: rest) [] u = rubScan rest [] (i :: u) := by
  simp [rubScan, h1, h2]

theorem rubScan_cons_close_pop {ch y : Char} (h1 : isOpening ch = false)
    (h2 : isClosing ch = true) (h3 : (y == matchingOpen ch) = true)
    (i j : Nat) (rest : List (Nat × Char)) (st : List (Char × Nat))
    (u : List Nat) :
    rubScan ((i, ch) :: rest) ((y, j) :: st) u = rubScan rest st u := by
  simp [rubScan, h1, h2, h3]

theorem rubScan_cons_close_mis {ch y : Char} (h1 : isOpening ch = false)
    (h2 : isClosing ch = true) (h3 : (y == matchingOpen ch) = false)
    (i j : Nat) (rest : List (Nat × Char)) (st : List (Char × Nat))
    (u : List Nat) :
    rubScan ((i, ch) :: rest) ((y, j) :: st) u =
      rubScan rest ((y, j) :: st) (i :: u) := by
  simp [rubScan, h1, h2, h3]

theorem rubScan_cons_other {ch : Char} (h1 : isOpening ch = false)
    (h2 : isClosing ch = false) (i : Nat) (rest : List (Nat × Char))
    (st : List (Char × Nat)) (u : List Nat) :
    rubScan ((i, ch) :: rest) st u = rubScan rest st u := by
  simp [rubScan, h1, h2]

/-- The unmatched-closer list of the scan only grows. -/
theorem rubScan_u_mono :
    ∀ (rest : List (Nat × Char)) (st : List (Char × Nat)) (u : List Nat)
      (j : Nat), j ∈ u → j ∈ (rubScan rest st u).2 := by
  intro rest
  induction rest with
  | nil => intro st u j hj; simpa [rubScan_nil] using hj
  | cons e rest ih =>
    obtain ⟨i, ch⟩ := e
    intro st u j hj
    cases hop : isOpening ch with
    | true => rw [rubScan_cons_open hop]; exact ih _ _ j hj
    | false =>
      cases hcl : isClosing ch with
      | true =>
        cases st with
        | nil =>
          rw [rubScan_cons_close_nil hop hcl]
          exact ih _ _ j (List.mem_cons_of_mem _ hj)
        | cons p st2 =>
          obtain ⟨y, j0⟩ := p
          cases hm : (y == matchingOpen ch) with
          | true => rw [rubScan_cons_close_pop hop hcl hm]; exact ih _ _ j hj
          | false =>
            rw [rubScan_cons_close_mis hop hcl hm]
            exact ih _ _ j (List.mem_cons_of_mem _ hj)
      | false => rw [rubScan_cons_other hop hcl]; exact ih _ _ j hj

/-- Every index in the result of the scan stems from the accumulated
unmatched list, the stack, or the indices still to be scanned. -/
theorem rubScan_sub :
    ∀ (rest : List (Nat × Char)) (st : List (Char × Nat)) (u : List Nat)
      (j : Nat),
      (j ∈ (rubScan rest st u).2 ∨ j ∈ (rubScan rest st u).1.map Prod.snd) →
      j ∈ u ∨ j ∈ st.map Prod.snd ∨ j ∈ rest.map Prod.fst := by
  intro rest
  induction rest with
  | nil =>
    intro st u j hj
    rw [rubScan_nil] at hj
    exact hj.imp id Or.inl
  | cons e rest ih =>
    obtain ⟨i, ch⟩ := e
    intro st u j hj
    cases hop : isOpening ch with
    | true =>
      rw [rubScan_cons_open hop] at hj
      have h := ih _ _ j hj
      simp only [List.map_cons, List.mem_cons] at h ⊢
      tauto
    | false =>
      cases hcl : isClosing ch with
      | true =>
        cases st with
        | nil =>
          rw [rubScan_cons_close_nil hop hcl] at hj
          have h := ih _ _ j hj
          simp only [List.map_cons, List.mem_cons] at h ⊢
          tauto
        | cons p st2 =>
          obtain ⟨y, j0⟩ := p
          cases hm : (y == matchingOpen ch) with
          | true =>
            rw [rubScan_cons_close_pop hop hcl hm] at hj
            have h := ih _ _ j hj
            simp only [List.map_cons, List.mem_cons] at h ⊢
            tauto
          | false =>
            rw [rubScan_cons_close_mis hop hcl hm] at hj
            have h := ih _ _ j hj
            simp only [List.map_cons, List.mem_cons] at h ⊢
            tauto
      | false =>
        rw [rubScan_cons_other hop hcl] at hj
        have h := ih _ _ j hj
        simp only [List.map_cons, List.mem_cons] at h ⊢
        tauto

/-- Every stack entry of the scan result is an opening bracket of the
scanned list, and every unmatched-closer index holds a closing bracket. -/
theorem rubScan_chars :
    ∀ (rest : List (Nat × Char)) (st : List (Char × Nat)) (u : List Nat)
      (E : List (Nat × Char)),
      (∀ p ∈ rest, p ∈ E) →
      (∀ q ∈ st, (q.2, q.1) ∈ E ∧ isOpening q.1 = true) →
      (∀ j ∈ u, ∃ ch, (j, ch) ∈ E ∧ isClosing ch = true) →
      (∀ q ∈ (rubScan rest st u).1, (q.2, q.1) ∈ E ∧ isOpening q.1 = true) ∧
      (∀ j ∈ (rubScan rest st u).2, ∃ ch, (j, ch) ∈ E ∧ isClosing ch = true) := by
  intro rest
  induction rest with
  | nil =>
    intro st u E _ hst hu
    rw [rubScan_nil]
    exact ⟨hst, hu⟩
  | cons e rest ih =>
    obtain ⟨i, ch⟩ := e
    intro st u E hrest hst hu
    have hiE : (i, ch) ∈ E := hrest _ (List.mem_cons_self _ _)
    have hrest' : ∀ p ∈ rest, p ∈ E := fun p hp =>
      hrest p (List.mem_cons_of_mem _ hp)
    cases hop : isOpening ch with
    | true =>
      rw [rubScan_cons_open hop]
      refine ih _ _ E hrest' ?_ hu
      intro q hq
      rcases List.mem_cons.1 hq with rfl | hq2
      · exact ⟨hiE, hop⟩
      · exact hst q hq2
    | false =>
      cases hcl : isClosing ch with
      | true =>
        cases st with
        | nil =>
          rw [rubScan_cons_close_nil hop hcl]
          refine ih _ _ E hrest' hst ?_
          intro j hj
          rcases List.mem_cons.1 hj with rfl | hj2
          · exact ⟨ch, hiE, hcl⟩
          · exact hu j hj2
        | cons p st2 =>
          obtain ⟨y, j0⟩ := p
          cases hm : (y == matchingOpen ch) with
          | true =>
            rw [rubScan_cons_close_pop hop hcl hm]
            refine ih _ _ E hrest' ?_ hu
            intro q hq
            exact hst q (List.mem_cons_of_mem _ hq)
          | false =>
            rw [rubScan_cons_close_mis hop hcl hm]
            refine ih _ _ E hrest' hst ?_
            intro j hj
            rcases List.mem_cons.1 hj with rfl | hj2
            · exact ⟨ch, hiE, hcl⟩
            · exact hu j hj2
      | false =>
        rw [rubScan_cons_other hop hcl]
        exact ih _ _ E hrest' hst hu

/-- An opening bracket is not a closing bracket. -/
theorem opening_not_closing {ch : Char} (h : isOpening ch = true) :
    isClosing ch = false := by
  simp only [isOpening, Bool.or_eq_true, beq_iff_eq] at h
  rcases h with (h | h) | h <;> subst h <;> rfl

/-- The matching opener determines the closer. -/
theorem matchingOpen_inj {x y : Char} (hx : isClosing x = true)
    (hy : isClosing y = true) (h : matchingOpen x = matchingOpen y) : x = y := by
  simp only [isClosing, Bool.or_eq_true, beq_iff_eq] at hx hy
  rcases hx with (h1 | h1) | h1 <;> rcases hy with (h2 | h2) | h2 <;>
    subst h1 <;> subst h2 <;> first | rfl | exact absurd h (by decide)

/-- An opener and a closer are distinct characters. -/
theorem opening_ne_closing {o c : Char} (ho : isOpening o = true)
    (hc : isClosing c = true) : o ≠ c := by
  intro he
  have h := opening_not_closing ho
  rw [he, hc] at h
  exact absurd h (by decide)

theorem dyckD_cons_o (o c : Char) (hne : o ≠ c) (d : Nat) (xs : List Char) :
    dyckD o c d (o :: xs) = dyckD o c (d + 1) xs := by
  simp [dyckD, beq_eq_false_iff_ne.2 hne]

theorem dyckD_cons_c (o c : Char) (d : Nat) (xs : List Char) :
    dyckD o c d (c :: xs) = (d != 0 && dyckD o c (d - 1) xs) := by
  simp [dyckD]

theorem dyckD_cons_other (o c : Char) {x : Char} (hxc : x ≠ c) (hxo : x ≠ o)
    (d : Nat) (xs : List Char) :
    dyckD o c d (x :: xs) = dyckD o c d xs := by
  simp [dyckD, beq_eq_false_iff_ne.2 hxc, beq_eq_false_iff_ne.2 hxo]

/-- Balance invariant of the scan for one bracket pair `o`/`c`: with `F`
the final unmatched-index set, the characters of `rest` kept by the final
filter pass the single-pair Dyck check, started at the number of stack
entries holding `o` whose index is destined to be kept. -/
theorem rubScan_dyck (o c : Char) (ho : isOpening o = true)
    (hc : isClosing c = true) (hmo : matchingOpen c = o) :
    ∀ (rest : List (Nat × Char)) (st : List (Char × Nat)) (u : List Nat)
      (F : List Nat),
      F = (rubScan rest st u).2 ++ (rubScan rest st u).1.map Prod.snd →
      (rest.map Prod.fst).Nodup →
      (∀ j ∈ u, j ∉ rest.map Prod.fst) →
      (∀ j ∈ st.map Prod.snd, j ∉ rest.map Prod.fst) →
      (st.map Prod.snd).Nodup →
      (∀ j ∈ st.map Prod.snd, j ∉ u) →
      dyckD o c
        ((st.filter (fun q => q.1 == o && decide (q.2 ∉ F))).length)
        ((rest.filter (fun e => decide (e.1 ∉ F))).map Prod.snd) = true := by
  have honc : o ≠ c := opening_ne_closing ho hc
  intro rest
  induction rest with
  | nil =>
    intro st u F hF _ _ _ _ _
    rw [rubScan_nil] at hF
    have hstf : st.filter (fun q => q.1 == o && decide (q.2 ∉ F)) = [] := by
      rw [List.filter_eq_nil_iff]
      intro q hq hqp
      rw [Bool.and_eq_true, decide_eq_true_eq] at hqp
      have hq2 : q.2 ∈ F := by
        rw [hF]
        exact List.mem_append_right _ (List.mem_map_of_mem Prod.snd hq)
      exact hqp.2 hq2
    rw [hstf]
    rfl
  | cons e rest ih =>
    obtain ⟨i, ch⟩ := e
    intro st u F hF hnd hu hst hstnd hstu
    simp only [List.map_cons, List.nodup_cons, List.mem_cons] at hnd hu hst
    obtain ⟨hinr, hnd'⟩ := hnd
    have hu' : ∀ j ∈ u, j ∉ rest.map Prod.fst := fun j hj h2 => hu j hj (Or.inr h2)
    have hiu : i ∉ u := fun hi => hu i hi (Or.inl rfl)
    have hst' : ∀ j ∈ st.map Prod.snd, j ∉ rest.map Prod.fst :=
      fun j hj h2 => hst j hj (Or.inr h2)
    have hist : i ∉ st.map Prod.snd := fun hi => hst i hi (Or.inl rfl)
    cases hop : isOpening ch with
    | true =>
      rw [rubScan_cons_open hop] at hF
      have hst2 : ∀ j ∈ ((ch, i) :: st).map Prod.snd, j ∉ rest.map Prod.fst := by
        intro j hj
        simp only [List.map_cons, List.mem_cons] at hj
        rcases hj with rfl | hj2
        · exact hinr
        · exact hst' j hj2
      have hnd2 : (((ch, i) :: st).map Prod.snd).Nodup := by
        simp only [List.map_cons]
        exact List.nodup_cons.2 ⟨hist, hstnd⟩
      have hstu2 : ∀ j ∈ ((ch, i) :: st).map Prod.snd, j ∉ u := by
        intro j hj
        simp only [List.map_cons, List.mem_cons] at hj
        rcases hj with rfl | hj2
        · exact hiu
        · exact hstu j hj2
      have key := ih ((ch, i) :: st) u F hF hnd' hu' hst2 hnd2 hstu2
      by_cases hi : i ∈ F
      · rw [List.filter_cons_of_neg (by simp [hi])] at key
        rw [List.filter_cons_of_neg (by simp [hi])]
        exact key
      · rw [List.filter_cons_of_pos (by simp [hi])]
        simp only [List.map_cons]
        by_cases hcho : ch = o
        · rw [hcho] at key ⊢
          rw [List.filter_cons_of_pos (by simp [hi]), List.length_cons] at key
          rw [dyckD_cons_o o c honc]
          exact key
        · rw [List.filter_cons_of_neg (by simp [hcho])] at key
          have hchc : ch ≠ c := opening_ne_closing hop hc
          rw [dyckD_cons_other o c hchc hcho]
          exact key
    | false =>
      cases hcl : isClosing ch with
      | true =>
        cases st with
        | nil =>
          rw [rubScan_cons_close_nil hop hcl] at hF
          have hiF : i ∈ F := by
            rw [hF]
            exact List.mem_append_left _
              (rubScan_u_mono rest [] (i :: u) i (List.mem_cons_self _ _))
          have hu2 : ∀ j ∈ i :: u, j ∉ rest.map Prod.fst := by
            intro j hj
            rcases List.mem_cons.1 hj with rfl | hj2
            · exact hinr
            · exact hu' j hj2
          have key := ih [] (i :: u) F hF hnd' hu2 (by simp) (by simp) (by simp)
          rw [List.filter_cons_of_neg (by simp [hiF])]
          exact key
        | cons p st2 =>
          obtain ⟨y, j0⟩ := p
          cases hm : (y == matchingOpen ch) with
          | false =>
            rw [rubScan_cons_close_mis hop hcl hm] at hF
            have hiF : i ∈ F := by
              rw [hF]
              exact List.mem_append_left _
                (rubScan_u_mono rest ((y, j0) :: st2) (i :: u) i
                  (List.mem_cons_self _ _))
            have hu2 : ∀ j ∈ i :: u, j ∉ rest.map Prod.fst := by
              intro j hj
              rcases List.mem_cons.1 hj with rfl | hj2
              · exact hinr
              · exact hu' j hj2
            have hstu2 : ∀ j ∈ ((y, j0) :: st2).map Prod.snd, j ∉ i :: u := by
              intro j hj hj2
              rcases List.mem_cons.1 hj2 with rfl | hj3
              · exact hist hj
              · exact hstu j hj hj3
            have key := ih ((y, j0) :: st2) (i :: u) F hF hnd' hu2 hst' hstnd hstu2
            have hout : List.filter (fun e => decide (e.1 ∉ F)) ((i, ch) :: rest) =
                List.filter (fun e => decide (e.1 ∉ F)) rest :=
              List.filter_cons_of_neg (by simp [hiF])
            rw [hout]
            exact key
          | true =>
            rw [rubScan_cons_close_pop hop hcl hm] at hF
            have hy : y = matchingOpen ch := beq_iff_eq.1 hm
            have hj0st : j0 ∈ ((y, j0) :: st2).map Prod.snd := by simp
            have hj0st2 : j0 ∉ st2.map Prod.snd := by
              have h2 := hstnd
              simp only [List.map_cons] at h2
              exact (List.nodup_cons.1 h2).1
            have hst2' : ∀ j ∈ st2.map Prod.snd, j ∉ rest.map Prod.fst :=
              fun j hj => hst' j (by simp [hj])
            have hstnd2 : (st2.map Prod.snd).Nodup := by
              have h2 := hstnd
              simp only [List.map_cons] at h2
              exact (List.nodup_cons.1 h2).2
            have hstu2 : ∀ j ∈ st2.map Prod.snd, j ∉ u :=
              fun j hj => hstu j (by simp [hj])
            have key := ih st2 u F hF hnd' hu' hst2' hstnd2 hstu2
            have hiF : i ∉ F := by
              intro hiF2
              rw [hF] at hiF2
              rcases rubScan_sub rest st2 u i (List.mem_append.1 hiF2) with h | h | h
              · exact hiu h
              · exact hist (by simp [h])
              · exact hinr h
            have hj0F : j0 ∉ F := by
              intro hj0F2
              rw [hF] at hj0F2
              rcases rubScan_sub rest st2 u j0 (List.mem_append.1 hj0F2) with h | h | h
              · exact hstu j0 hj0st h
              · exact hj0st2 h
              · exact hst' j0 hj0st h
            have hout : List.filter (fun e => decide (e.1 ∉ F)) ((i, ch) :: rest) =
                (i, ch) :: List.filter (fun e => decide (e.1 ∉ F)) rest :=
              List.filter_cons_of_pos (by simp [hiF])
            rw [hout]
            simp only [List.map_cons]
            by_cases hchc : ch = c
            · have hyeq : y = o := by rw [hy, hchc, hmo]
              rw [hchc, hyeq]
              rw [List.filter_cons_of_pos (by simp [hj0F]), List.length_cons,
                dyckD_cons_c, Bool.and_eq_true]
              refine ⟨by simp [bne_iff_ne], ?_⟩
              rw [Nat.add_sub_cancel]
              exact key
            · have hyo : y ≠ o := by
                intro hyeq
                exact hchc (matchingOpen_inj hcl hc (by rw [← hy, hyeq, hmo]))
              have hcho : ch ≠ o := by
                intro he
                rw [he, ho] at hop
                exact absurd hop (by decide)
              rw [List.filter_cons_of_neg (by simp [hyo])]
              rw [dyckD_cons_other o c hchc hcho]
              exact key
      | false =>
        rw [rubScan_cons_other hop hcl] at hF
        have key := ih st u F hF hnd' hu' hst' hstnd hstu
        have hcho : ch ≠ o := by
          intro he
          rw [he, ho] at hop
          exact absurd hop (by decide)
        have hchc : ch ≠ c := by
          intro he
          rw [he, hc] at hcl
          exact absurd hcl (by decide)
        by_cases hi : i ∈ F
        · rw [List.filter_cons_of_neg (by simp [hi])]
          exact key
        · rw [List.filter_cons_of_pos (by simp [hi])]
          simp only [List.map_cons]
          rw [dyckD_cons_other o c hchc hcho]
          exact key

/-- `remove_unmatched_brackets` as a filter over the enumerated input. -/
theorem rub_eq (s : List Char) :
    remove_unmatched_brackets s =
      (s.enum.filter (fun e => decide (e.1 ∉ rubUnmatched s))).map Prod.snd := rfl

/-- Counting semantics of the Dyck checker: closers never outnumber
openers plus the initial depth on any prefix, and the totals agree. -/
theorem dyckD_spec (o c : Char) (hne : o ≠ c) :
    ∀ (l : List Char) (d : Nat), dyckD o c d l = true →
      (∀ n, (l.take n).count c ≤ d + (l.take n).count o) ∧
      d + l.count o = l.count c := by
  intro l
  induction l with
  | nil =>
    intro d h
    have hd : d = 0 := by simpa [dyckD] using h
    subst hd
    exact ⟨fun n => by simp, by simp⟩
  | cons x xs ih =>
    intro d h
    by_cases hxc : x = c
    · rw [hxc] at h ⊢
      rw [dyckD_cons_c, Bool.and_eq_true] at h
      obtain ⟨hd0, h2⟩ := h
      have hd0' : d ≠ 0 := by simpa [bne_iff_ne] using hd0
      obtain ⟨d', rfl⟩ : ∃ d', d = d' + 1 := ⟨d - 1, by omega⟩
      rw [Nat.add_sub_cancel] at h2
      have ih' := ih d' h2
      constructor
      · intro n
        cases n with
        | zero => simp
        | succ m =>
          rw [List.take_succ_cons, List.count_cons_self,
            List.count_cons_of_ne hne]
          have h1 := ih'.1 m
          omega
      · rw [List.count_cons_self, List.count_cons_of_ne hne]
        have h2' := ih'.2
        omega
    · by_cases hxo : x = o
      · rw [hxo] at h ⊢
        rw [dyckD_cons_o o c hne] at h
        have ih' := ih (d + 1) h
        constructor
        · intro n
          cases n with
          | zero => simp
          | succ m =>
            rw [List.take_succ_cons, List.count_cons_self,
              List.count_cons_of_ne (Ne.symm hne)]
            have h1 := ih'.1 m
            omega
        · rw [List.count_cons_self, List.count_cons_of_ne (Ne.symm hne)]
          have h2' := ih'.2
          omega
      · rw [dyckD_cons_other o c hxc hxo] at h
        have ih' := ih d h
        constructor
        · intro n
          cases n with
          | zero => simp
          | succ m =>
            rw [List.take_succ_cons, List.count_cons_of_ne (Ne.symm hxc),
              List.count_cons_of_ne (Ne.symm hxo)]
            have h1 := ih'.1 m
            omega
        · rw [List.count_cons_of_ne (Ne.symm hxc),
            List.count_cons_of_ne (Ne.symm hxo)]
          have h2' := ih'.2
          omega

/-- Two characters enumerated at the same index are equal. -/
theorem enum_snd_inj {s : List Char} {i : Nat} {a b : Char}
    (ha : (i, a) ∈ s.enum) (hb : (i, b) ∈ s.enum) : a = b := by
  rw [List.mem_enum_iff_getElem?] at ha hb
  exact Option.some.inj (ha.symm.trans hb)

/-- The removal keeps a subsequence of the input: relative order of all
remaining characters is preserved. -/
theorem rub_sublist (s : List Char) : (remove_unmatched_brackets s).Sublist s := by
  rw [rub_eq s]
  have h2 := List.Sublist.map Prod.snd
    (@List.filter_sublist (Nat × Char) (fun e => decide (e.1 ∉ rubUnmatched s))
      s.enum)
  rwa [List.enum_map_snd] at h2

/-- Non-bracket characters are never removed: filtering the brackets away
commutes with the removal. -/
theorem rub_keeps_nonbrackets (s : List Char) :
    (remove_unmatched_brackets s).filter
        (fun ch => !(isOpening ch || isClosing ch)) =
      s.filter (fun ch => !(isOpening ch || isClosing ch)) := by
  have hchars := rubScan_chars s.enum [] [] s.enum (fun p hp => hp)
    (by simp) (by simp)
  have hbr : ∀ j ∈ rubUnmatched s, ∃ ch, (j, ch) ∈ s.enum ∧
      (isOpening ch || isClosing ch) = true := by
    intro j hj
    rcases List.mem_append.1 hj with hj2 | hj2
    · obtain ⟨ch, hch, hcl⟩ := hchars.2 j hj2
      exact ⟨ch, hch, by rw [hcl]; simp⟩
    · obtain ⟨q, hq, hq2⟩ := List.mem_map.1 hj2
      obtain ⟨hmem, hoq⟩ := hchars.1 q hq
      exact ⟨q.1, by rw [← hq2]; exact hmem, by rw [hoq]; simp⟩
  rw [rub_eq s, List.filter_map Prod.snd, List.filter_filter]
  conv_rhs => rw [← List.enum_map_snd s, List.filter_map Prod.snd]
  refine congrArg (List.map Prod.snd) (List.filter_congr ?_)
  intro e he
  obtain ⟨i, ch⟩ := e
  show ((!(isOpening ch || isClosing ch)) && decide (i ∉ rubUnmatched s)) =
    (!(isOpening ch || isClosing ch))
  cases hnb : (!(isOpening ch || isClosing ch)) with
  | false => rw [Bool.false_and]
  | true =>
    rw [Bool.true_and]
    have hkeep : i ∉ rubUnmatched s := by
      intro hi
      obtain ⟨ch', hch', hbr'⟩ := hbr i hi
      have hcc : ch = ch' := enum_snd_inj he hch'
      rw [← hcc] at hbr'
      rw [hbr'] at hnb
      simp at hnb
    simp [hkeep]

/-- Balance of the output for one matching opener/closer pair. -/
theorem rub_balanced {o c : Char} (ho : isOpening o = true)
    (hc : isClosing c = true) (hmo : matchingOpen c = o) (s : List Char) :
    balancedFor o c (remove_unmatched_brackets s) := by
  have hd := rubScan_dyck o c ho hc hmo s.enum [] [] (rubUnmatched s) rfl
    (List.nodup_enum_map_fst s) (by simp) (by simp) (by simp) (by simp)
  rw [List.filter_nil, List.length_nil] at hd
  rw [← rub_eq s] at hd
  have hspec := dyckD_spec o c (opening_ne_closing ho hc)
    (remove_unmatched_brackets s) 0 hd
  unfold balancedFor
  constructor
  · intro n
    have h1 := hspec.1 n
    omega
  · have h2 := hspec.2
    omega

/-- C9: `remove_unmatched_brackets` deletes exactly the positions the
stack scan marks unmatched (that is its definition here), so its output is
an order-preserving subsequence of the input, it never removes a
non-bracket character (filtering the brackets away commutes with the
removal), and the output is bracket-balanced for each of the three pair
types independently. -/
theorem C9_remove_unmatched (s : List Char) :
    (remove_unmatched_brackets s).Sublist s ∧
    (remove_unmatched_brackets s).filter
        (fun ch => !(isOpening ch || isClosing ch)) =
      s.filter (fun ch => !(isOpening ch || isClosing ch)) ∧
    balancedFor '(' ')' (remove_unmatched_brackets s) ∧
    balancedFor '[' ']' (remove_unmatched_brackets s) ∧
    balancedFor '\x7b' '\x7d' (remove_unmatched_brackets s) :=
  ⟨rub_sublist s, rub_keeps_nonbrackets s,
    rub_balanced (by decide) (by decide) (by decide) s,
    rub_balanced (by decide) (by decide) (by decide) s,
    rub_balanced (by decide) (by decide) (by decide) s⟩

end Translator
